import Mathlib

/-!
BookDatabase: a shallow embedding of the catalogue library.

The C++ library (`book.hpp`, `book_database.hpp`, `filters.hpp`,
`comparators.hpp`, `statsistics.hpp`) is embedded as pure Lean functions.

* `std::vector<Book>` is a `List`, positions are list indices.
* `std::string_view` / `std::string` are `String` values.
* `int` fields are `Int`, `size_t` is `Nat` (no arithmetic that could wrap is
  performed on them by the library).
* `double` is a type parameter `D` that carries the handful of operations the
  library applies to it (`DoubleArith`), so every statement holds for each
  interpretation of the floating-point operations.
* `std::unordered_set<std::string, ...>` is a list of stored texts, in which
  `emplace` looks a key up with the equality functor before appending it.
* `std::flat_map<K, V, Compare>` is a key-sorted association list.
* `std::nth_element` and `std::sample` are parameters constrained by their
  contracts, each with one executable implementation.
* Where the identity of the storage behind an author view matters, a second
  embedding (`StoredDatabase`) pairs every record with the storage its view
  refers to; erasing the storage gives the embedding by values.
-/

namespace bookdb

/-! ## book.hpp -/

/-- The scoped enumeration `Genre`. Its underlying type is `int`, and the
library stores values outside the six enumerators as they are
(`static_cast<Genre>(999)` in the tests), so a value is its underlying integer. -/
structure Genre where
  val : Int
deriving DecidableEq, Repr

namespace Genre

def Fiction : Genre := ⟨0⟩
def NonFiction : Genre := ⟨1⟩
def SciFi : Genre := ⟨2⟩
def Biography : Genre := ⟨3⟩
def Mystery : Genre := ⟨4⟩
def Unknown : Genre := ⟨5⟩

end Genre

/-- The table `genres` local to `GenreFromString`. -/
def genres : List (String × Genre) :=
  [("Fiction", Genre.Fiction), ("NonFiction", Genre.NonFiction), ("SciFi", Genre.SciFi),
   ("Biography", Genre.Biography), ("Mystery", Genre.Mystery)]

/-- The function `GenreFromString`: `std::find_if` over the table with `pair.first == s`. -/
def GenreFromString (s : String) : Genre :=
  match genres.find? (fun pair => pair.1 == s) with
  | some it => it.2
  | none => Genre.Unknown

/-- The operations the library applies to values of the C++ type `double`. -/
class DoubleArith (D : Type) where
  /-- The literal `0.0` (also the `int` literal `0` converted to `double`). -/
  zero : D
  /-- The sum `a + b`. -/
  add : D → D → D
  /-- The quotient `a / b`. -/
  div : D → D → D
  /-- The conversion of a `size_t` to `double`. -/
  ofSize : Nat → D
  /-- The comparison `a > b`. -/
  gt : D → D → Bool

/-- The record `struct Book`, fields in declaration order. -/
structure Book (D : Type) where
  author : String
  title : String
  year : Int
  genre : Genre
  rating : D
  read_count : Int
deriving DecidableEq, Repr

namespace Book

variable {D : Type}

/-- The constructor `Book(title, author, year, genre_str, rating, read_count)`. -/
def ofLabel (title author : String) (year : Int) (genre_str : String) (rating : D)
    (read_count : Int) : Book D :=
  { author := author, title := title, year := year, genre := GenreFromString genre_str,
    rating := rating, read_count := read_count }

/-- The constructor `Book(title, author, year, genre, rating, read_count)`. -/
def ofGenre (title author : String) (year : Int) (genre : Genre) (rating : D)
    (read_count : Int) : Book D :=
  { author := author, title := title, year := year, genre := genre,
    rating := rating, read_count := read_count }

end Book

/-! ## book_database.hpp -/

/-- Modelled from the spec: `heterogeneous_lookup.hpp` (the functor
`TransparentStringEqual`) is not among the sources; author texts are compared
by case-sensitive exact match. -/
def TransparentStringEqual (a b : String) : Bool := a == b

/-- The type `AuthorContainer`: the stored author texts. The iteration order of
the `std::unordered_set` is unspecified; the list keeps insertion order. -/
abbrev AuthorContainer := List String

/-- The call `authors_.emplace(key)`: the container afterwards, the element the
returned iterator points to, and the flag `inserted`. -/
def AuthorContainer.emplace (authors : AuthorContainer) (key : String) :
    AuthorContainer × String × Bool :=
  match authors.find? (fun a => TransparentStringEqual a key) with
  | some it => (authors, it, false)
  | none => (authors ++ [key], key, true)

/-- The class `BookDatabase<std::vector<Book>>`. -/
structure BookDatabase (D : Type) where
  books_ : List (Book D)
  authors_ : AuthorContainer
deriving DecidableEq, Repr

namespace BookDatabase

variable {D : Type}

/-- The default constructor `BookDatabase()`. -/
def empty : BookDatabase D := { books_ := [], authors_ := [] }

/-- The method `size()`. -/
def size (db : BookDatabase D) : Nat := db.books_.length

/-- The method `GetBooks()`. -/
def GetBooks (db : BookDatabase D) : List (Book D) := db.books_

/-- The method `GetAuthors()`. -/
def GetAuthors (db : BookDatabase D) : AuthorContainer := db.authors_

/-- The private `AddAuthor(value)`: `value` is passed by reference, so the
record as rebound is returned next to the author set and the flag. -/
def AddAuthor (authors : AuthorContainer) (value : Book D) :
    AuthorContainer × Book D × Bool :=
  let r := AuthorContainer.emplace authors value.author
  (r.1, { value with author := r.2.1 }, r.2.2)

/-- The method `PushBack(elem)`: `books_.push_back(elem); AddAuthor(books_.back());`. -/
def PushBack (db : BookDatabase D) (elem : Book D) : BookDatabase D :=
  let r := AddAuthor db.authors_ elem
  { books_ := db.books_ ++ [r.2.1], authors_ := r.1 }

/-- The method `EmplaceBack(args...)` with the arguments of the `Genre` constructor: the
database afterwards and the returned reference `ref`. -/
def EmplaceBack (db : BookDatabase D) (title author : String) (year : Int) (genre : Genre)
    (rating : D) (read_count : Int) : BookDatabase D × Book D :=
  let r := AddAuthor db.authors_ (Book.ofGenre title author year genre rating read_count)
  ({ books_ := db.books_ ++ [r.2.1], authors_ := r.1 }, r.2.1)

/-- The method `EmplaceBack(args...)` with the arguments of the text-label constructor. -/
def EmplaceBackLabel (db : BookDatabase D) (title author : String) (year : Int)
    (genre_str : String) (rating : D) (read_count : Int) : BookDatabase D × Book D :=
  let r := AddAuthor db.authors_ (Book.ofLabel title author year genre_str rating read_count)
  ({ books_ := db.books_ ++ [r.2.1], authors_ := r.1 }, r.2.1)

/-- The method `Clear()`. -/
def Clear (_db : BookDatabase D) : BookDatabase D := { books_ := [], authors_ := [] }

end BookDatabase

/-- The author set holds the author texts of the stored records, each once. -/
def AuthorsExact {D : Type} (db : BookDatabase D) : Prop :=
  (∀ a, a ∈ db.authors_ ↔ ∃ b ∈ db.books_, b.author = a) ∧ db.authors_.Nodup

/-- One insertion call on a database. -/
inductive Insertion (D : Type) where
  | pushBack (elem : Book D)
  | emplaceBack (title author : String) (year : Int) (genre : Genre) (rating : D)
      (read_count : Int)
  | emplaceBackLabel (title author : String) (year : Int) (genre_str : String) (rating : D)
      (read_count : Int)

namespace Insertion

variable {D : Type}

/-- The record an insertion call hands to the database. -/
def record : Insertion D → Book D
  | pushBack elem => elem
  | emplaceBack t a y g r c => Book.ofGenre t a y g r c
  | emplaceBackLabel t a y g r c => Book.ofLabel t a y g r c

/-- The database after one insertion call. -/
def apply (db : BookDatabase D) : Insertion D → BookDatabase D
  | pushBack elem => db.PushBack elem
  | emplaceBack t a y g r c => (db.EmplaceBack t a y g r c).1
  | emplaceBackLabel t a y g r c => (db.EmplaceBackLabel t a y g r c).1

/-- The database after a sequence of insertion calls, first call first. -/
def run (db : BookDatabase D) (calls : List (Insertion D)) : BookDatabase D :=
  calls.foldl apply db

end Insertion

/-! ## filters.hpp -/

section filters

variable {D : Type}

/-- The factory `YearBetween(minYear, maxYear)`. -/
def YearBetween (minYear maxYear : Int) : Book D → Bool :=
  fun book => decide (minYear ≤ book.year) && decide (book.year ≤ maxYear)

/-- The factory `RatingAbove(threashold)`. -/
def RatingAbove [DoubleArith D] (threashold : D) : Book D → Bool :=
  fun book => DoubleArith.gt book.rating threashold

/-- The factory `GenreIs(genre)`. -/
def GenreIs (genre : Genre) : Book D → Bool :=
  fun book => decide (book.genre = genre)

/-- The combinator `all_of(args...)`: the right fold `(args(book) && ...)`, which is
`true` for the empty pack. -/
def all_of : List (Book D → Bool) → Book D → Bool
  | [], _ => true
  | [p], book => p book
  | p :: q :: ps, book => p book && all_of (q :: ps) book

/-- The combinator `any_of(args...)`: the right fold `(args(book) || ...)`, which is
`false` for the empty pack. -/
def any_of : List (Book D → Bool) → Book D → Bool
  | [], _ => false
  | [p], book => p book
  | p :: q :: ps, book => p book || any_of (q :: ps) book

/-- The algorithm `std::copy_if(begin, end, std::back_inserter(res), pred)`: the
range `[begin, end)` is walked front to back and `res` grows at its end. -/
def copy_if (pred : Book D → Bool) : List (Book D) → List (Book D) → List (Book D)
  | [], res => res
  | book :: rest, res => copy_if pred rest (if pred book then res ++ [book] else res)

/-- The function `filterBooks(begin, end, pred)` over the range `[begin, end)`. -/
def filterBooks (range : List (Book D)) (pred : Book D → Bool) : List (Book D) :=
  copy_if pred range []

end filters

/-! ## std::flat_map -/

/-- The container `std::flat_map<K, V, Compare>`: the entries in key order. -/
abbrev flat_map (K V : Type) := List (K × V)

namespace flat_map

variable {K V : Type}

/-- The expression `m[key]` followed by the update `f` of the mapped value: the
entry is looked for in key order; when there is no entry with an equivalent key,
`(key, init)` is inserted at its place first, `init` being the value-initialised
`V`. -/
def update (comp : K → K → Bool) (init : V) (f : V → V) : flat_map K V → K → flat_map K V
  | [], key => [(key, f init)]
  | (k, v) :: rest, key =>
    if comp k key then (k, v) :: update comp init f rest key
    else if comp key k then (key, f init) :: (k, v) :: rest
    else (k, f v) :: rest

/-- The call `m.emplace(key, value)`: inserts at the place of `key` unless an entry
with an equivalent key is there already. -/
def emplace (comp : K → K → Bool) : flat_map K V → K → V → flat_map K V
  | [], key, value => [(key, value)]
  | (k, v) :: rest, key, value =>
    if comp k key then (k, v) :: emplace comp rest key value
    else if comp key k then (key, value) :: (k, v) :: rest
    else (k, v) :: rest

/-- The call `m.find(key)`: the mapped value of the entry with an equivalent key. -/
def find (comp : K → K → Bool) : flat_map K V → K → Option V
  | [], _ => none
  | (k, v) :: rest, key =>
    if comp k key then find comp rest key
    else if comp key k then none
    else some v

end flat_map

/-- A comparator under which distinct keys are never equivalent. -/
structure StrictTotalOrdering {K : Type} (comp : K → K → Bool) : Prop where
  irrefl : ∀ a, comp a a = false
  trans : ∀ a b c, comp a b = true → comp b c = true → comp a c = true
  total : ∀ a b, comp a b = false → comp b a = false → a = b

/-- The named requirement *Compare* of the standard library: a strict weak
ordering. -/
structure StrictWeakOrdering {α : Type} (comp : α → α → Bool) : Prop where
  irrefl : ∀ a, comp a a = false
  trans : ∀ a b c, comp a b = true → comp b c = true → comp a c = true
  incomp_trans : ∀ a b c, comp a b = false → comp b a = false → comp b c = false →
    comp c b = false → comp a c = false ∧ comp c a = false

/-- The algorithm `std::lexicographical_compare` on two character ranges (also
the order of `std::string_view`): the first position where the ranges differ
decides, and a proper initial part precedes the whole. -/
def lexicographical_compare : List Char → List Char → Bool
  | _, [] => false
  | [], _ :: _ => true
  | a :: as, b :: bs =>
    if a < b then true else if b < a then false else lexicographical_compare as bs

/-- The elements of a `std::string_view` as plain `char` values: the bytes of the
UTF-8 text, read as `signed char` as on x86-64, so that the bytes from 128 on are
negative. -/
def plain_chars (s : String) : List Int :=
  (s.toList.flatMap String.utf8EncodeChar).map
    (fun b => if b.toNat < 128 then (b.toNat : Int) else (b.toNat : Int) - 256)

/-- The algorithm `std::ranges::lexicographical_compare` with the default
`std::ranges::less` on ranges of plain `char`. -/
def ranges_lexicographical_compare : List Int → List Int → Bool
  | _, [] => false
  | [], _ :: _ => true
  | a :: as, b :: bs =>
    if a < b then true else if b < a then false else ranges_lexicographical_compare as bs

/-! ## comparators.hpp -/

namespace comp

variable {D : Type}

/-- The comparator `LessByAuthor`: `std::ranges::lexicographical_compare` over the
plain `char` elements of the two author views. -/
def LessByAuthor (lhs rhs : Book D) : Bool :=
  ranges_lexicographical_compare (plain_chars lhs.author) (plain_chars rhs.author)

/-- The comparator `LessByRating`. -/
def LessByRating [DoubleArith D] (lhs rhs : Book D) : Bool :=
  DoubleArith.gt lhs.rating rhs.rating

/-- The comparator `LessByPopularity`. -/
def LessByPopularity (lhs rhs : Book D) : Bool :=
  decide (lhs.read_count > rhs.read_count)

end comp

/-! ## statsistics.hpp -/

section statistics

variable {D : Type}

/-- Modelled from the spec: `heterogeneous_lookup.hpp` (the functor
`TransparentStringLess`, the default comparator of the histogram) is not among
the sources; the histogram has one key per distinct author text, so texts are
ordered as `std::string_view` values, lexicographically. -/
def TransparentStringLess (a b : String) : Bool :=
  lexicographical_compare a.toList b.toList

/-- The function `buildAuthorHistogramFlat(cont, comp)`. -/
def buildAuthorHistogramFlat (comp : String → String → Bool) (cont : BookDatabase D) :
    flat_map String Nat :=
  cont.books_.foldl (fun hist book => flat_map.update comp 0 (fun n => n + 1) hist book.author) []

/-- The local `struct GenreInfo`. -/
structure GenreInfo (D : Type) where
  count : Nat
  rating : D

/-- The ordering `std::less<Genre>`: the order of the underlying values. -/
def genreLess (a b : Genre) : Bool := decide (a.val < b.val)

/-- The value-initialised `GenreInfo{}`: `count = 0`, `rating = 0.0`. -/
def GenreInfo.init [DoubleArith D] : GenreInfo D := { count := 0, rating := DoubleArith.zero }

/-- The first loop of `calculateGenreRatings`: the map `fmGenreInfo` after the
records of `books` were visited in order. -/
def fmGenreInfo [DoubleArith D] (books : List (Book D)) : flat_map Genre (GenreInfo D) :=
  books.foldl
    (fun fm book =>
      let fm1 := flat_map.update genreLess GenreInfo.init
        (fun info => { info with count := info.count + 1 }) fm book.genre
      flat_map.update genreLess GenreInfo.init
        (fun info => { info with rating := DoubleArith.add info.rating book.rating })
        fm1 book.genre)
    []

/-- The function `calculateGenreRatings(cont)`: the second loop emplaces
`rating / count` for the entries of `fmGenreInfo`, in key order. -/
def calculateGenreRatings [DoubleArith D] (cont : BookDatabase D) : flat_map Genre D :=
  (fmGenreInfo cont.books_).foldl
    (fun res it =>
      flat_map.emplace genreLess res it.1
        (DoubleArith.div it.2.rating (DoubleArith.ofSize it.2.count)))
    []

/-- The algorithm `std::accumulate(begin, end, init, op)`. -/
def accumulate {A : Type} (op : A → Book D → A) : A → List (Book D) → A
  | init, [] => init
  | init, book :: rest => accumulate op (op init book) rest

/-- The function `calculateAverageRating(cont)`. -/
def calculateAverageRating [DoubleArith D] (cont : BookDatabase D) : D :=
  if cont.books_.isEmpty then DoubleArith.zero
  else DoubleArith.div
    (accumulate (fun sum book => DoubleArith.add sum book.rating) DoubleArith.zero cont.books_)
    (DoubleArith.ofSize cont.size)

/-- The postcondition of `std::nth_element(first, nth, last, comp)` in the C++
standard, for the range `before` rearranged into `after`: the range is permuted,
no element from position `nth` on precedes the element at position `nth`, and no
element from position `nth` on precedes an element before position `nth`. -/
def NthElementPost {α : Type} (comp : α → α → Bool) (before : List α) (nth : Nat)
    (after : List α) : Prop :=
  after.Perm before ∧
  (∀ e ∈ (after.drop nth).head?, ∀ s ∈ after.drop nth, comp s e = false) ∧
  (∀ r ∈ after.take nth, ∀ s ∈ after.drop nth, comp s r = false)

/-- The contract of an implementation of `std::nth_element`: the postcondition
holds whenever the comparator is a strict weak ordering and `nth` lies in the
range. -/
def NthElementContract {α : Type} (nth_element : (α → α → Bool) → List α → Nat → List α) :
    Prop :=
  ∀ comp, StrictWeakOrdering comp → ∀ range nth, nth ≤ range.length →
    NthElementPost comp range nth (nth_element comp range nth)

/-- An implementation of `std::nth_element` that returns at once when `nth` is
the end of the range and otherwise sorts the whole range by insertion (what
libstdc++ does for ranges of at most three elements). -/
def nth_element_sorting {α : Type} (comp : α → α → Bool) (range : List α) (nth : Nat) :
    List α :=
  if nth < range.length then range.insertionSort (fun a b => comp b a = false) else range

/-- The function `getTopNBy(cont, N, comp)` on top of an implementation of
`std::nth_element`: the database afterwards and the returned records. -/
def getTopNBy (nth_element : (Book D → Book D → Bool) → List (Book D) → Nat → List (Book D))
    (cont : BookDatabase D) (N : Nat) (comp : Book D → Book D → Bool) :
    BookDatabase D × List (Book D) :=
  let size := min N cont.size
  let books := nth_element comp cont.books_ size
  ({ cont with books_ := books }, books.take size)

end statistics

/-- The interpretation of `double` by exact rational arithmetic. -/
instance exactRationals : DoubleArith ℚ where
  zero := 0
  add := fun a b => a + b
  div := fun a b => a / b
  ofSize := fun n => (n : ℚ)
  gt := fun a b => decide (a > b)

/-- The fixture of the test suite: the three records of `SetUp`, inserted in order. -/
def fixture : BookDatabase ℚ :=
  Insertion.run BookDatabase.empty
    [Insertion.emplaceBack "1984" "George Orwell" 1949 Genre.SciFi 4 190,
     Insertion.emplaceBack "Animal Farm" "George Orwell" 1945 Genre.Fiction (mkRat 22 5) 143,
     Insertion.emplaceBack "The Great Gatsby" "F. Scott Fitzgerald" 1925 Genre.Fiction (mkRat 9 2)
       120]

/-! ## Element access, sampling and reachable databases -/

/-- The exceptions of the standard library that the library can let through. -/
inductive Exception where
  | out_of_range
  | length_error
deriving DecidableEq, Repr

/-- The method `empty()` (the name `BookDatabase.empty` is the default
constructor). -/
def BookDatabase.is_empty {D : Type} (db : BookDatabase D) : Bool := db.books_.isEmpty

/-- The method `at(pos)`: `books_.at(pos)`, which throws `std::out_of_range` when
`pos >= size()`. -/
def BookDatabase.«at» {D : Type} (db : BookDatabase D) (pos : Nat) :
    Except Exception (Book D) :=
  if h : pos < db.books_.length then Except.ok (db.books_.get ⟨pos, h⟩)
  else Except.error Exception.out_of_range

/-- The contract of an implementation of `std::sample(first, last, out, n, g)` on
forward iterators, `g` being the state of the random generator: the sample has
`min(n, last - first)` elements and is taken from the population in a stable way,
that is from increasing positions. -/
def SampleContract {α G : Type} (sample : List α → Nat → G → List α) : Prop :=
  ∀ population n g, (sample population n g).Sublist population ∧
    (sample population n g).length = min n population.length

/-- An implementation of `std::sample` by selection sampling (what libstdc++ does
on forward iterators): with `unsampled` elements left, the next one is taken when
a draw from `[0, unsampled - 1]` is below the number of elements still to take.
The generator is the list of its raw draws. -/
def sample_selection {α : Type} : List α → Nat → List Nat → List α
  | [], _, _ => []
  | x :: rest, n, draws =>
    if draws.headD 0 % (rest.length + 1) < min n (rest.length + 1) then
      x :: sample_selection rest (min n (rest.length + 1) - 1) draws.tail
    else sample_selection rest (min n (rest.length + 1)) draws.tail

/-- The function `sampleRandomBooks(cont, N)` on top of an implementation of
`std::sample`, for the generator state `g` that `std::random_device` seeded:
`res.reserve(N)` throws `std::length_error` when `N` exceeds `max_size()` of the
result vector, then the sample is appended to `res`. -/
def sampleRandomBooks {D G : Type} (max_size : Nat)
    (sample : List (Book D) → Nat → G → List (Book D)) (g : G) (cont : BookDatabase D)
    (N : Nat) : Except Exception (List (Book D)) :=
  if N > max_size then Except.error Exception.length_error
  else Except.ok (sample cont.books_ N g)

/-- The value of `max_size()` for the result vector
`std::vector<std::reference_wrapper<const Book>>` in libstdc++ on a 64-bit target:
`PTRDIFF_MAX / sizeof(void*)`. -/
def vector_max_size : Nat := 2 ^ 60 - 1

/-- The largest value of `size_t` on a 64-bit target. -/
def SIZE_MAX : Nat := 2 ^ 64 - 1

/-- The databases reachable from the empty one by `PushBack`, `EmplaceBack`,
`Clear` and `getTopNBy` (called within the precondition of `std::nth_element`). -/
inductive Reachable {D : Type}
    (nth_element : (Book D → Book D → Bool) → List (Book D) → Nat → List (Book D)) :
    BookDatabase D → Prop where
  | empty : Reachable nth_element BookDatabase.empty
  | insertion (db : BookDatabase D) (call : Insertion D) :
      Reachable nth_element db → Reachable nth_element (Insertion.apply db call)
  | clear (db : BookDatabase D) : Reachable nth_element db → Reachable nth_element db.Clear
  | topN (db : BookDatabase D) (N : Nat) (comp : Book D → Book D → Bool) :
      StrictWeakOrdering comp → Reachable nth_element db →
      Reachable nth_element (getTopNBy nth_element db N comp).1

/-- The values of a `double` as far as comparison goes: not-a-number, or a number
(infinities are left out). -/
inductive Float64 where
  | nan
  | num (q : ℚ)
deriving DecidableEq

/-- The interpretation of `double` with a not-a-number value: every comparison
with it is false, as in IEEE 754. Sums and quotients of numbers are exact and
everything else is not-a-number; the comparators do not use them. -/
instance ieeeComparison : DoubleArith Float64 where
  zero := Float64.num 0
  add := fun a b =>
    match a, b with
    | Float64.num x, Float64.num y => Float64.num (x + y)
    | _, _ => Float64.nan
  div := fun a b =>
    match a, b with
    | Float64.num x, Float64.num y => if y = 0 then Float64.nan else Float64.num (x / y)
    | _, _ => Float64.nan
  ofSize := fun n => Float64.num (n : ℚ)
  gt := fun a b =>
    match a, b with
    | Float64.num x, Float64.num y => decide (x > y)
    | _, _ => false

/-- Three records with the ratings `1.0`, not-a-number and `2.0`. -/
def nanRatings : Book Float64 × Book Float64 × Book Float64 :=
  (Book.ofGenre "A" "a" 2001 Genre.Fiction (Float64.num 1) 1,
   Book.ofGenre "B" "b" 2002 Genre.Fiction Float64.nan 2,
   Book.ofGenre "C" "c" 2003 Genre.Fiction (Float64.num 2) 3)

/-! ## Author views with their storage -/

/-- Where the characters that a `std::string_view` refers to are stored: in
storage of the caller, or in the element of `authors_` at a position. The
elements of the `std::unordered_set` never move and are only added at the end, so
a position names one stored `std::string`. -/
inductive Storage where
  | caller (id : Nat)
  | authors (pos : Nat)
deriving DecidableEq, Repr

/-- A record together with the storage its `author` view refers to; the text of
the view is `book.author`. -/
structure StoredBook (D : Type) where
  author_data : Storage
  book : Book D
deriving DecidableEq, Repr

/-- The call `authors_.emplace(key)` with the returned iterator as a position:
the container afterwards, the position of the element the iterator points to,
and the flag `inserted`. -/
def AuthorContainer.emplace_pos (authors : AuthorContainer) (key : String) :
    AuthorContainer × Nat × Bool :=
  if authors.findIdx (fun a => TransparentStringEqual a key) < authors.length then
    (authors, authors.findIdx (fun a => TransparentStringEqual a key), false)
  else (authors ++ [key], authors.length, true)

/-- The class `BookDatabase<std::vector<Book>>` with the storage of every author
view made explicit. -/
structure StoredDatabase (D : Type) where
  books_ : List (StoredBook D)
  authors_ : AuthorContainer
deriving DecidableEq, Repr

namespace StoredDatabase

variable {D : Type}

/-- The default constructor `BookDatabase()`. -/
def empty : StoredDatabase D := { books_ := [], authors_ := [] }

/-- The database of values behind a database with storage. -/
def values (db : StoredDatabase D) : BookDatabase D :=
  { books_ := db.books_.map (fun r => r.book), authors_ := db.authors_ }

/-- The private `AddAuthor(value)`: after `authors_.emplace(value.author)` the
assignment `value.author = *it` makes the view refer to the stored element, both
in its storage and in its text. -/
def AddAuthor (authors : AuthorContainer) (value : StoredBook D) :
    AuthorContainer × StoredBook D × Bool :=
  let r := AuthorContainer.emplace_pos authors value.book.author
  (r.1,
    { author_data := Storage.authors r.2.1,
      book := { value.book with author := r.1.getD r.2.1 "" } },
    r.2.2)

/-- The method `PushBack(elem)`: `books_.push_back(elem); AddAuthor(books_.back());`. -/
def PushBack (db : StoredDatabase D) (elem : StoredBook D) : StoredDatabase D :=
  let r := AddAuthor db.authors_ elem
  { books_ := db.books_ ++ [r.2.1], authors_ := r.1 }

/-- One insertion call (`PushBack` or `EmplaceBack`) whose author argument refers
to the storage `author_data`. -/
def insert (db : StoredDatabase D) (author_data : Storage) (call : Insertion D) :
    StoredDatabase D :=
  db.PushBack { author_data := author_data, book := call.record }

/-- The method `Clear()`. -/
def Clear (_db : StoredDatabase D) : StoredDatabase D := { books_ := [], authors_ := [] }

/-- The function `getTopNBy(cont, N, comp)`; the records move with their views. -/
def getTopNBy
    (nth_element : (StoredBook D → StoredBook D → Bool) → List (StoredBook D) → Nat →
      List (StoredBook D))
    (cont : StoredDatabase D) (N : Nat) (comp : StoredBook D → StoredBook D → Bool) :
    StoredDatabase D × List (StoredBook D) :=
  let size := min N cont.books_.length
  let books := nth_element comp cont.books_ size
  ({ cont with books_ := books }, books.take size)

/-- The databases reachable from the empty one by `PushBack`, `EmplaceBack`,
`Clear` and `getTopNBy` (called within the precondition of `std::nth_element`). -/
inductive Reachable
    (nth_element : (StoredBook D → StoredBook D → Bool) → List (StoredBook D) → Nat →
      List (StoredBook D)) :
    StoredDatabase D → Prop where
  | empty : Reachable nth_element StoredDatabase.empty
  | insertion (db : StoredDatabase D) (author_data : Storage) (call : Insertion D) :
      Reachable nth_element db → Reachable nth_element (db.insert author_data call)
  | clear (db : StoredDatabase D) : Reachable nth_element db → Reachable nth_element db.Clear
  | topN (db : StoredDatabase D) (N : Nat) (comp : StoredBook D → StoredBook D → Bool) :
      StrictWeakOrdering comp → Reachable nth_element db →
      Reachable nth_element (StoredDatabase.getTopNBy nth_element db N comp).1

/-- Every record's author view refers to the element of the author set that
holds its text, and no text is stored twice. -/
def Canonical (db : StoredDatabase D) : Prop :=
  (∀ r ∈ db.books_, ∃ pos, r.author_data = Storage.authors pos ∧
    db.authors_[pos]? = some r.book.author) ∧
  db.authors_.Nodup

end StoredDatabase

/-- The fixture of the test suite with its storage: the three records of `SetUp`,
inserted in order, their author arguments in storage of the caller. -/
def storedFixture : StoredDatabase ℚ :=
  ((StoredDatabase.empty.insert (Storage.caller 1)
      (Insertion.emplaceBack "1984" "George Orwell" 1949 Genre.SciFi 4 190)).insert
      (Storage.caller 2)
      (Insertion.emplaceBack "Animal Farm" "George Orwell" 1945 Genre.Fiction (mkRat 22 5) 143)).insert
    (Storage.caller 3)
    (Insertion.emplaceBack "The Great Gatsby" "F. Scott Fitzgerald" 1925 Genre.Fiction
      (mkRat 9 2) 120)

end bookdb

/-! ## Properties -/

namespace bookdb

section lemmas

variable {D : Type}

theorem TransparentStringEqual_iff (a b : String) : TransparentStringEqual a b = true ↔ a = b := by
  simp [TransparentStringEqual]

theorem AuthorContainer.emplace_of_mem (authors : AuthorContainer) (key : String)
    (h : key ∈ authors) : AuthorContainer.emplace authors key = (authors, key, false) := by
  unfold AuthorContainer.emplace
  cases hf : authors.find? (fun a => TransparentStringEqual a key) with
  | none =>
    rw [List.find?_eq_none] at hf
    exact absurd ((TransparentStringEqual_iff key key).2 rfl) (hf key h)
  | some it =>
    have h1 := List.find?_some hf
    rw [TransparentStringEqual_iff] at h1
    simp [h1]

theorem AuthorContainer.emplace_of_not_mem (authors : AuthorContainer) (key : String)
    (h : key ∉ authors) : AuthorContainer.emplace authors key = (authors ++ [key], key, true) := by
  unfold AuthorContainer.emplace
  cases hf : authors.find? (fun a => TransparentStringEqual a key) with
  | none => rfl
  | some it =>
    have h1 := List.find?_some hf
    rw [TransparentStringEqual_iff] at h1
    exact absurd (h1 ▸ List.mem_of_find?_eq_some hf) h

theorem BookDatabase.AddAuthor_eq (authors : AuthorContainer) (value : Book D) :
    BookDatabase.AddAuthor authors value =
      (if value.author ∈ authors then authors else authors ++ [value.author], value,
        decide (value.author ∉ authors)) := by
  unfold BookDatabase.AddAuthor
  by_cases h : value.author ∈ authors
  · simp [AuthorContainer.emplace_of_mem authors _ h, h]
  · simp [AuthorContainer.emplace_of_not_mem authors _ h, h]

theorem BookDatabase.PushBack_eq (db : BookDatabase D) (elem : Book D) :
    db.PushBack elem =
      { books_ := db.books_ ++ [elem],
        authors_ := if elem.author ∈ db.authors_ then db.authors_
                    else db.authors_ ++ [elem.author] } := by
  simp [BookDatabase.PushBack, BookDatabase.AddAuthor_eq]

theorem Insertion.apply_eq (db : BookDatabase D) (call : Insertion D) :
    Insertion.apply db call = db.PushBack call.record := by
  cases call <;> rfl

theorem AuthorsExact_empty : AuthorsExact (BookDatabase.empty : BookDatabase D) := by
  simp [AuthorsExact, BookDatabase.empty]

theorem AuthorsExact_PushBack (db : BookDatabase D) (elem : Book D) (h : AuthorsExact db) :
    AuthorsExact (db.PushBack elem) := by
  obtain ⟨hmem, hnd⟩ := h
  rw [BookDatabase.PushBack_eq]
  by_cases hin : elem.author ∈ db.authors_
  · refine ⟨fun a => ?_, by simpa [hin] using hnd⟩
    simp only [hin, if_true, List.mem_append, List.mem_singleton]
    constructor
    · intro ha
      obtain ⟨b, hb, hba⟩ := (hmem a).1 ha
      exact ⟨b, Or.inl hb, hba⟩
    · rintro ⟨b, hb | hb, hba⟩
      · exact (hmem a).2 ⟨b, hb, hba⟩
      · subst hb; subst hba; exact hin
  · refine ⟨fun a => ?_, ?_⟩
    · simp only [hin, if_false, List.mem_append, List.mem_singleton]
      constructor
      · rintro (ha | ha)
        · obtain ⟨b, hb, hba⟩ := (hmem a).1 ha
          exact ⟨b, Or.inl hb, hba⟩
        · exact ⟨elem, Or.inr rfl, ha.symm⟩
      · rintro ⟨b, hb | hb, hba⟩
        · exact Or.inl ((hmem a).2 ⟨b, hb, hba⟩)
        · subst hb; exact Or.inr hba.symm
    · simp only [hin, if_false]
      exact List.Nodup.append hnd (List.nodup_singleton _) (by simpa using hin)

theorem Insertion.run_books (db : BookDatabase D) (calls : List (Insertion D)) :
    (Insertion.run db calls).books_ = db.books_ ++ calls.map Insertion.record := by
  induction calls generalizing db with
  | nil => simp [Insertion.run]
  | cons call rest ih =>
    have := ih (Insertion.apply db call)
    simp only [Insertion.run, List.foldl_cons] at this ⊢
    rw [this, Insertion.apply_eq, BookDatabase.PushBack_eq]
    simp

theorem Insertion.run_AuthorsExact (db : BookDatabase D) (calls : List (Insertion D))
    (h : AuthorsExact db) : AuthorsExact (Insertion.run db calls) := by
  induction calls generalizing db with
  | nil => simpa [Insertion.run] using h
  | cons call rest ih =>
    have := ih (Insertion.apply db call)
      (by rw [Insertion.apply_eq]; exact AuthorsExact_PushBack db _ h)
    simpa only [Insertion.run, List.foldl_cons] using this

theorem AuthorsExact.length_eq (db : BookDatabase D) (h : AuthorsExact db) :
    db.authors_.length = ((db.books_.map (fun b => b.author)).toFinset).card := by
  rw [← List.toFinset_card_of_nodup h.2]
  congr 1
  ext a
  simp only [List.mem_toFinset, List.mem_map]
  exact h.1 a

theorem copy_if_eq (pred : Book D → Bool) (range res : List (Book D)) :
    copy_if pred range res = res ++ range.filter pred := by
  induction range generalizing res with
  | nil => simp [copy_if]
  | cons book rest ih =>
    rw [copy_if, ih]
    by_cases hp : pred book = true
    · simp [hp]
    · simp [hp]

theorem filterBooks_eq_filter (range : List (Book D)) (pred : Book D → Bool) :
    filterBooks range pred = range.filter pred := by
  simp [filterBooks, copy_if_eq]

theorem all_of_cons (p : Book D → Bool) (ps : List (Book D → Bool)) (book : Book D) :
    all_of (p :: ps) book = (p book && all_of ps book) := by
  cases ps <;> simp [all_of]

theorem any_of_cons (p : Book D → Bool) (ps : List (Book D → Bool)) (book : Book D) :
    any_of (p :: ps) book = (p book || any_of ps book) := by
  cases ps <;> simp [any_of]

theorem all_of_iff (ps : List (Book D → Bool)) (book : Book D) :
    all_of ps book = true ↔ ∀ p ∈ ps, p book = true := by
  induction ps with
  | nil => simp [all_of]
  | cons p ps ih => simp [all_of_cons, ih]

theorem any_of_iff (ps : List (Book D → Bool)) (book : Book D) :
    any_of ps book = true ↔ ∃ p ∈ ps, p book = true := by
  induction ps with
  | nil => simp [any_of]
  | cons p ps ih => simp [any_of_cons, ih]

end lemmas

section flat_map_lemmas

variable {K V : Type}

theorem StrictTotalOrdering.asymm {comp : K → K → Bool} (h : StrictTotalOrdering comp)
    {a b : K} (hab : comp a b = true) : comp b a = false := by
  cases hba : comp b a with
  | false => rfl
  | true =>
    have := h.trans a b a hab hba
    rw [h.irrefl a] at this
    exact absurd this (by decide)

theorem flat_map.find_update_self {comp : K → K → Bool} (h : StrictTotalOrdering comp)
    (init : V) (f : V → V) (m : flat_map K V) (key : K) :
    flat_map.find comp (flat_map.update comp init f m key) key =
      some (f ((flat_map.find comp m key).getD init)) := by
  induction m with
  | nil => simp [flat_map.update, flat_map.find, h.irrefl]
  | cons e rest ih =>
    obtain ⟨k, v⟩ := e
    cases h1 : comp k key with
    | true => simp [flat_map.update, flat_map.find, h1, ih]
    | false =>
      cases h2 : comp key k with
      | true => simp [flat_map.update, flat_map.find, h1, h2, h.irrefl]
      | false => simp [flat_map.update, flat_map.find, h1, h2]

theorem flat_map.find_update_of_ne {comp : K → K → Bool} (h : StrictTotalOrdering comp)
    (init : V) (f : V → V) (m : flat_map K V) (key key2 : K) (hne : key2 ≠ key) :
    flat_map.find comp (flat_map.update comp init f m key) key2 = flat_map.find comp m key2 := by
  induction m with
  | nil =>
    cases h1 : comp key key2 with
    | true => simp [flat_map.update, flat_map.find, h1]
    | false =>
      cases h2 : comp key2 key with
      | true => simp [flat_map.update, flat_map.find, h1, h2]
      | false => exact absurd (h.total key2 key h2 h1) hne
  | cons e rest ih =>
    obtain ⟨k, v⟩ := e
    cases h1 : comp k key with
    | true => simp [flat_map.update, flat_map.find, h1, ih]
    | false =>
      cases h2 : comp key k with
      | true =>
        cases h3 : comp key key2 with
        | true => simp [flat_map.update, flat_map.find, h1, h2, h3]
        | false =>
          cases h4 : comp key2 key with
          | false => exact absurd (h.total key2 key h4 h3) hne
          | true =>
            have h5 : comp key2 k = true := h.trans key2 key k h4 h2
            have h6 : comp k key2 = false := h.asymm h5
            simp [flat_map.update, flat_map.find, h1, h2, h3, h4, h5, h6]
      | false =>
        have hk : key = k := h.total key k h2 h1
        subst hk
        simp [flat_map.update, flat_map.find, h1]
        cases h3 : comp key key2 with
        | true => simp
        | false =>
          cases h4 : comp key2 key with
          | false => exact absurd (h.total key2 key h4 h3) hne
          | true => simp

theorem flat_map.mem_keys_update {comp : K → K → Bool} (h : StrictTotalOrdering comp)
    (init : V) (f : V → V) (m : flat_map K V) (key key2 : K) :
    key2 ∈ (flat_map.update comp init f m key).map Prod.fst ↔
      key2 ∈ m.map Prod.fst ∨ key2 = key := by
  induction m with
  | nil => simp [flat_map.update]
  | cons e rest ih =>
    obtain ⟨k, v⟩ := e
    cases h1 : comp k key with
    | true =>
      simp only [flat_map.update, h1, if_true, List.map_cons, List.mem_cons, ih]
      exact or_assoc.symm
    | false =>
      cases h2 : comp key k with
      | true =>
        simp only [flat_map.update, h1, h2, Bool.false_eq_true, if_false, if_true, List.map_cons,
          List.mem_cons]
        tauto
      | false =>
        have hk : key = k := h.total key k h2 h1
        subst hk
        simp only [flat_map.update, h1, Bool.false_eq_true, if_false, List.map_cons, List.mem_cons]
        tauto

theorem flat_map.keys_sorted_update {comp : K → K → Bool} (h : StrictTotalOrdering comp)
    (init : V) (f : V → V) (m : flat_map K V) (key : K)
    (hs : (m.map Prod.fst).Pairwise (fun a b => comp a b = true)) :
    ((flat_map.update comp init f m key).map Prod.fst).Pairwise (fun a b => comp a b = true) := by
  induction m with
  | nil => simp [flat_map.update]
  | cons e rest ih =>
    obtain ⟨k, v⟩ := e
    simp only [List.map_cons, List.pairwise_cons] at hs
    obtain ⟨hk, hrest⟩ := hs
    cases h1 : comp k key with
    | true =>
      simp only [flat_map.update, h1, if_true, List.map_cons, List.pairwise_cons]
      refine ⟨fun k2 hk2 => ?_, ih hrest⟩
      rcases (flat_map.mem_keys_update h init f rest key k2).1 hk2 with hin | heq
      · exact hk k2 hin
      · rw [heq]; exact h1
    | false =>
      cases h2 : comp key k with
      | true =>
        simp only [flat_map.update, h1, h2, Bool.false_eq_true, if_false, if_true, List.map_cons,
          List.pairwise_cons]
        refine ⟨fun k2 hk2 => ?_, hk, hrest⟩
        rcases List.mem_cons.1 hk2 with heq | hin
        · rw [heq]; exact h2
        · exact h.trans key k k2 h2 (hk k2 hin)
      | false =>
        simp only [flat_map.update, h1, h2, Bool.false_eq_true, if_false, List.map_cons,
          List.pairwise_cons]
        exact ⟨hk, hrest⟩

theorem flat_map.emplace_append (comp : K → K → Bool) (m : flat_map K V) (key : K) (value : V)
    (hlt : ∀ k ∈ m.map Prod.fst, comp k key = true) :
    flat_map.emplace comp m key value = m ++ [(key, value)] := by
  induction m with
  | nil => rfl
  | cons e rest ih =>
    obtain ⟨k, v⟩ := e
    have h1 : comp k key = true := hlt k (by simp)
    simp only [flat_map.emplace, h1, if_true, List.cons_append]
    rw [ih (fun k2 hk2 => hlt k2 (by simp only [List.map_cons, List.mem_cons]; exact Or.inr hk2))]

theorem flat_map.foldl_emplace_sorted {W : Type} (comp : K → K → Bool) (g : W → V)
    (entries : flat_map K W) (res : flat_map K V)
    (hs : ((res.map Prod.fst) ++ (entries.map Prod.fst)).Pairwise (fun a b => comp a b = true)) :
    entries.foldl (fun r it => flat_map.emplace comp r it.1 (g it.2)) res =
      res ++ entries.map (fun it => (it.1, g it.2)) := by
  induction entries generalizing res with
  | nil => simp
  | cons it rest ih =>
    have hlt : ∀ k ∈ res.map Prod.fst, comp k it.1 = true := by
      intro k hk
      rw [List.pairwise_append] at hs
      exact hs.2.2 k hk it.1 (by simp)
    simp only [List.foldl_cons]
    rw [flat_map.emplace_append comp res it.1 (g it.2) hlt, ih]
    · simp
    · simpa using hs

theorem flat_map.find_map_values {W : Type} (comp : K → K → Bool) (g : W → V)
    (m : flat_map K W) (key : K) :
    flat_map.find comp (m.map (fun it => (it.1, g it.2))) key =
      (flat_map.find comp m key).map g := by
  induction m with
  | nil => rfl
  | cons e rest ih =>
    obtain ⟨k, v⟩ := e
    simp only [List.map_cons, flat_map.find, ih]
    split_ifs <;> rfl

theorem flat_map.find_some_of_mem {comp : K → K → Bool} (h : StrictTotalOrdering comp)
    (m : flat_map K V) (key : K) (value : V)
    (hs : (m.map Prod.fst).Pairwise (fun a b => comp a b = true)) (hmem : (key, value) ∈ m) :
    flat_map.find comp m key = some value := by
  induction m with
  | nil => simp at hmem
  | cons e rest ih =>
    obtain ⟨k, v⟩ := e
    simp only [List.map_cons, List.pairwise_cons] at hs
    rcases List.mem_cons.1 hmem with heq | hin
    · simp only [Prod.mk.injEq] at heq
      obtain ⟨hk, hv⟩ := heq
      subst hk; subst hv
      simp [flat_map.find, h.irrefl]
    · have hlt : comp k key = true := hs.1 key (List.mem_map.2 ⟨(key, value), hin, rfl⟩)
      simp [flat_map.find, hlt, ih hs.2 hin]

theorem flat_map.mem_of_find_some (comp : K → K → Bool) (m : flat_map K V) (key : K) (value : V)
    (htotal : ∀ a b, comp a b = false → comp b a = false → a = b)
    (hfind : flat_map.find comp m key = some value) : (key, value) ∈ m := by
  induction m with
  | nil => simp [flat_map.find] at hfind
  | cons e rest ih =>
    obtain ⟨k, v⟩ := e
    cases h1 : comp k key with
    | true =>
      simp only [flat_map.find, h1, if_true] at hfind
      exact List.mem_cons_of_mem _ (ih hfind)
    | false =>
      cases h2 : comp key k with
      | true => simp [flat_map.find, h1, h2] at hfind
      | false =>
        simp only [flat_map.find, h1, h2, Bool.false_eq_true, if_false, Option.some.injEq]
          at hfind
        rw [htotal key k h2 h1, hfind]
        exact List.mem_cons_self _ _

theorem lexicographical_compare_irrefl (l : List Char) :
    lexicographical_compare l l = false := by
  induction l with
  | nil => rfl
  | cons x xs ih => simp [lexicographical_compare, ih]

theorem lexicographical_compare_total (a b : List Char)
    (hab : lexicographical_compare a b = false) (hba : lexicographical_compare b a = false) :
    a = b := by
  induction a generalizing b with
  | nil =>
    cases b with
    | nil => rfl
    | cons y ys => simp [lexicographical_compare] at hab
  | cons x xs ih =>
    cases b with
    | nil => simp [lexicographical_compare] at hba
    | cons y ys =>
      rcases lt_trichotomy x y with h | h | h
      · simp [lexicographical_compare, h] at hab
      · subst h
        simp only [lexicographical_compare, lt_irrefl, if_false] at hab hba
        rw [ih ys hab hba]
      · simp [lexicographical_compare, h] at hba

theorem lexicographical_compare_trans (a b c : List Char)
    (hab : lexicographical_compare a b = true) (hbc : lexicographical_compare b c = true) :
    lexicographical_compare a c = true := by
  induction a generalizing b c with
  | nil =>
    cases c with
    | nil => cases b <;> simp [lexicographical_compare] at hbc
    | cons z zs => rfl
  | cons x xs ih =>
    cases b with
    | nil => simp [lexicographical_compare] at hab
    | cons y ys =>
      cases c with
      | nil => simp [lexicographical_compare] at hbc
      | cons z zs =>
        rcases lt_trichotomy x y with h1 | h1 | h1
        · rcases lt_trichotomy y z with h2 | h2 | h2
          · simp [lexicographical_compare, lt_trans h1 h2]
          · subst h2; simp [lexicographical_compare, h1]
          · simp [lexicographical_compare, h2, lt_asymm h2] at hbc
        · subst h1
          rcases lt_trichotomy x z with h2 | h2 | h2
          · simp [lexicographical_compare, h2]
          · subst h2
            simp only [lexicographical_compare, lt_irrefl, if_false] at hab hbc ⊢
            exact ih ys zs hab hbc
          · simp [lexicographical_compare, h2, lt_asymm h2] at hbc
        · simp [lexicographical_compare, h1, lt_asymm h1] at hab

theorem TransparentStringLess_strictTotal : StrictTotalOrdering TransparentStringLess where
  irrefl := fun a => lexicographical_compare_irrefl a.toList
  trans := fun _ _ _ hab hbc => lexicographical_compare_trans _ _ _ hab hbc
  total := fun _ _ hab hba => String.ext (lexicographical_compare_total _ _ hab hba)

theorem genreLess_strictTotal : StrictTotalOrdering genreLess where
  irrefl := fun a => by simp [genreLess]
  trans := fun a b c hab hbc => by
    simp only [genreLess, decide_eq_true_eq] at *
    exact lt_trans hab hbc
  total := fun a b hab hba => by
    simp only [genreLess, decide_eq_false_iff_not, not_lt] at *
    cases a; cases b
    simp only [Genre.mk.injEq]
    exact le_antisymm hba hab

end flat_map_lemmas

section statistics_lemmas

variable {D : Type}

theorem histogram_find {comp : String → String → Bool} (h : StrictTotalOrdering comp)
    (books : List (Book D)) (a : String) :
    flat_map.find comp
        (books.foldl (fun hist book => flat_map.update comp 0 (fun n => n + 1) hist book.author)
          []) a =
      if books.countP (fun b => decide (b.author = a)) = 0 then none
      else some (books.countP (fun b => decide (b.author = a))) := by
  induction books using List.reverseRecOn with
  | nil => simp [flat_map.find]
  | append_singleton bs b ih =>
    rw [List.foldl_append, List.foldl_cons, List.foldl_nil]
    by_cases ha : a = b.author
    · subst ha
      rw [flat_map.find_update_self h, ih]
      by_cases hc : bs.countP (fun x => decide (x.author = b.author)) = 0
      · simp [hc, List.countP_append]
      · simp [hc, List.countP_append]
    · rw [flat_map.find_update_of_ne h _ _ _ _ _ ha, ih]
      have hb : ¬ b.author = a := fun e => ha e.symm
      simp [List.countP_append, hb]

theorem histogram_keys {comp : String → String → Bool} (h : StrictTotalOrdering comp)
    (books : List (Book D)) (a : String) :
    a ∈ (books.foldl (fun hist book => flat_map.update comp 0 (fun n => n + 1) hist book.author)
          ([] : flat_map String Nat)).map Prod.fst ↔ ∃ b ∈ books, b.author = a := by
  induction books using List.reverseRecOn with
  | nil => simp
  | append_singleton bs b ih =>
    rw [List.foldl_append, List.foldl_cons, List.foldl_nil, flat_map.mem_keys_update h, ih]
    constructor
    · rintro (⟨x, hx, hxa⟩ | ha)
      · exact ⟨x, List.mem_append_left _ hx, hxa⟩
      · exact ⟨b, by simp, ha.symm⟩
    · rintro ⟨x, hx, hxa⟩
      rcases List.mem_append.1 hx with hx | hx
      · exact Or.inl ⟨x, hx, hxa⟩
      · rw [List.mem_singleton] at hx
        subst hx
        exact Or.inr hxa.symm

theorem histogram_sorted {comp : String → String → Bool} (h : StrictTotalOrdering comp)
    (books : List (Book D)) :
    ((books.foldl (fun hist book => flat_map.update comp 0 (fun n => n + 1) hist book.author)
          ([] : flat_map String Nat)).map Prod.fst).Pairwise (fun a b => comp a b = true) := by
  induction books using List.reverseRecOn with
  | nil => simp
  | append_singleton bs b ih =>
    rw [List.foldl_append, List.foldl_cons, List.foldl_nil]
    exact flat_map.keys_sorted_update h _ _ _ _ ih

theorem pairwise_comp_nodup {K : Type} {comp : K → K → Bool} (h : StrictTotalOrdering comp)
    (keys : List K) (hs : keys.Pairwise (fun a b => comp a b = true)) : keys.Nodup := by
  refine List.Pairwise.imp ?_ hs
  intro a b hab heq
  subst heq
  rw [h.irrefl a] at hab
  exact absurd hab (by decide)

theorem accumulate_eq_foldl {A : Type} (op : A → Book D → A) (init : A) (range : List (Book D)) :
    accumulate op init range = range.foldl op init := by
  induction range generalizing init with
  | nil => rfl
  | cons book rest ih => simp [accumulate, ih]

variable [DoubleArith D]

theorem fmGenreInfo_find (books : List (Book D)) (g : Genre) :
    flat_map.find genreLess (fmGenreInfo books) g =
      if (books.filter (fun b => decide (b.genre = g))).length = 0 then none
      else some
        ({ count := (books.filter (fun b => decide (b.genre = g))).length,
           rating := (books.filter (fun b => decide (b.genre = g))).foldl
            (fun sum b => DoubleArith.add sum b.rating) DoubleArith.zero } : GenreInfo D) := by
  induction books using List.reverseRecOn with
  | nil => simp [fmGenreInfo, flat_map.find]
  | append_singleton bs b ih =>
    unfold fmGenreInfo at ih ⊢
    rw [List.foldl_append, List.foldl_cons, List.foldl_nil]
    by_cases hg : g = b.genre
    · subst hg
      simp only [flat_map.find_update_self genreLess_strictTotal, Option.getD_some, ih]
      by_cases hc : (bs.filter (fun x => decide (x.genre = b.genre))).length = 0
      · have hnil := List.length_eq_zero.1 hc
        simp [hnil, List.filter_append, GenreInfo.init]
      · simp [hc, List.filter_append, List.foldl_append]
    · simp only [flat_map.find_update_of_ne genreLess_strictTotal _ _ _ _ _ hg, ih]
      have hb : ¬ b.genre = g := fun e => hg e.symm
      simp [List.filter_append, hb]

theorem fmGenreInfo_keys (books : List (Book D)) (g : Genre) :
    g ∈ (fmGenreInfo books).map Prod.fst ↔ ∃ b ∈ books, b.genre = g := by
  induction books using List.reverseRecOn with
  | nil => simp [fmGenreInfo]
  | append_singleton bs b ih =>
    unfold fmGenreInfo at ih ⊢
    rw [List.foldl_append, List.foldl_cons, List.foldl_nil]
    simp only [flat_map.mem_keys_update genreLess_strictTotal, ih]
    constructor
    · rintro ((⟨x, hx, hxa⟩ | ha) | ha)
      · exact ⟨x, List.mem_append_left _ hx, hxa⟩
      · exact ⟨b, by simp, ha.symm⟩
      · exact ⟨b, by simp, ha.symm⟩
    · rintro ⟨x, hx, hxa⟩
      rcases List.mem_append.1 hx with hx | hx
      · exact Or.inl (Or.inl ⟨x, hx, hxa⟩)
      · rw [List.mem_singleton] at hx
        subst hx
        exact Or.inr hxa.symm

theorem fmGenreInfo_sorted (books : List (Book D)) :
    ((fmGenreInfo books).map Prod.fst).Pairwise (fun a b => genreLess a b = true) := by
  induction books using List.reverseRecOn with
  | nil => simp [fmGenreInfo]
  | append_singleton bs b ih =>
    unfold fmGenreInfo at ih ⊢
    rw [List.foldl_append, List.foldl_cons, List.foldl_nil]
    exact flat_map.keys_sorted_update genreLess_strictTotal _ _ _ _
      (flat_map.keys_sorted_update genreLess_strictTotal _ _ _ _ ih)

theorem calculateGenreRatings_eq_map (cont : BookDatabase D) :
    calculateGenreRatings cont =
      (fmGenreInfo cont.books_).map
        (fun it => (it.1, DoubleArith.div it.2.rating (DoubleArith.ofSize it.2.count))) := by
  unfold calculateGenreRatings
  have := flat_map.foldl_emplace_sorted genreLess
    (fun info : GenreInfo D => DoubleArith.div info.rating (DoubleArith.ofSize info.count))
    (fmGenreInfo cont.books_) [] (by simpa using fmGenreInfo_sorted cont.books_)
  simpa using this

theorem StrictWeakOrdering.not_both {α : Type} {comp : α → α → Bool}
    (h : StrictWeakOrdering comp) (a b : α) : comp b a = false ∨ comp a b = false := by
  cases hba : comp b a with
  | false => exact Or.inl rfl
  | true =>
    cases hab : comp a b with
    | false => exact Or.inr rfl
    | true =>
      have := h.trans a b a hab hba
      rw [h.irrefl a] at this
      exact absurd this (by decide)

theorem StrictWeakOrdering.not_lt_trans {α : Type} {comp : α → α → Bool}
    (h : StrictWeakOrdering comp) (a b c : α) (hba : comp b a = false)
    (hcb : comp c b = false) : comp c a = false := by
  cases hca : comp c a with
  | false => rfl
  | true =>
    cases hab : comp a b with
    | true =>
      have := h.trans c a b hca hab
      rw [hcb] at this
      exact absurd this (by decide)
    | false =>
      cases hbc : comp b c with
      | true =>
        have := h.trans b c a hbc hca
        rw [hba] at this
        exact absurd this (by decide)
      | false =>
        have := (h.incomp_trans a b c hab hba hbc hcb).2
        rw [hca] at this
        exact absurd this (by decide)

theorem nth_element_sorting_contract {α : Type} :
    NthElementContract (nth_element_sorting : (α → α → Bool) → List α → Nat → List α) := by
  intro comp hcomp range nth hnth
  by_cases hlt : nth < range.length
  swap
  · have hdrop : List.drop nth range = [] := List.drop_eq_nil_of_le (Nat.le_of_not_lt hlt)
    simp only [NthElementPost, nth_element_sorting, hlt, if_false, hdrop]
    exact ⟨List.Perm.refl _, by simp, by simp⟩
  haveI : IsTotal α (fun a b => comp b a = false) := ⟨fun a b => hcomp.not_both a b⟩
  haveI : IsTrans α (fun a b => comp b a = false) :=
    ⟨fun a b c hab hbc => hcomp.not_lt_trans a b c hab hbc⟩
  have hsorted : (range.insertionSort (fun a b => comp b a = false)).Pairwise
      (fun a b => comp b a = false) :=
    List.sorted_insertionSort (fun a b => comp b a = false) range
  have hperm := List.perm_insertionSort (fun a b => comp b a = false) range
  simp only [NthElementPost, nth_element_sorting, hlt, if_true]
  rw [← List.take_append_drop nth (range.insertionSort (fun a b => comp b a = false)),
    List.pairwise_append] at hsorted
  refine ⟨hperm, ?_, fun r hr s hs => hsorted.2.2 r hr s hs⟩
  intro e he s hs
  cases hd : List.drop nth (range.insertionSort (fun a b => comp b a = false)) with
  | nil => rw [hd] at hs; simp at hs
  | cons x rest =>
    rw [hd] at he hs
    have hdrop := hsorted.2.1
    rw [hd, List.pairwise_cons] at hdrop
    simp only [List.head?_cons, Option.mem_def, Option.some.injEq] at he
    subst he
    rcases List.mem_cons.1 hs with heq | hin
    · rw [heq]; exact hcomp.irrefl x
    · exact hdrop.1 s hin

theorem LessByRating_exactRationals :
    StrictWeakOrdering (comp.LessByRating : Book ℚ → Book ℚ → Bool) where
  irrefl := fun a => by simp [comp.LessByRating, DoubleArith.gt]
  trans := fun a b c hab hbc => by
    simp only [comp.LessByRating, DoubleArith.gt, decide_eq_true_eq] at *
    exact lt_trans hbc hab
  incomp_trans := fun a b c hab hba hbc hcb => by
    simp only [comp.LessByRating, DoubleArith.gt, decide_eq_false_iff_not, not_lt, gt_iff_lt]
      at *
    exact ⟨le_trans hab hbc, le_trans hcb hba⟩

end statistics_lemmas

section sample_lemmas

theorem sample_selection_contract {α : Type} :
    SampleContract (sample_selection : List α → Nat → List Nat → List α) := by
  intro population
  induction population with
  | nil => intro n g; simp [sample_selection]
  | cons x rest ih =>
    intro n g
    have hr : g.headD 0 % (rest.length + 1) < rest.length + 1 := Nat.mod_lt _ (Nat.succ_pos _)
    by_cases hsel : g.headD 0 % (rest.length + 1) < min n (rest.length + 1)
    · obtain ⟨hsub, hlen⟩ := ih (min n (rest.length + 1) - 1) g.tail
      simp only [sample_selection, hsel, if_true, List.length_cons]
      refine ⟨hsub.cons₂ x, ?_⟩
      rw [hlen]
      have h1 : 1 ≤ min n (rest.length + 1) := Nat.lt_of_le_of_lt (Nat.zero_le _) hsel
      simp only [Nat.min_def] at h1 ⊢
      split_ifs at h1 ⊢ <;> omega
    · obtain ⟨hsub, hlen⟩ := ih (min n (rest.length + 1)) g.tail
      simp only [sample_selection, hsel, if_false, List.length_cons]
      refine ⟨hsub.cons x, ?_⟩
      rw [hlen]
      simp only [Nat.min_def] at hsel ⊢
      split_ifs at hsel ⊢ <;> omega

theorem sampleRandomBooks_within_max_size {D G : Type} (max_size : Nat)
    (sample : List (Book D) → Nat → G → List (Book D)) (hstd : SampleContract sample) (g : G)
    (db : BookDatabase D) (N : Nat) (hN : N ≤ max_size) :
    ∃ res, sampleRandomBooks max_size sample g db N = Except.ok res ∧
      res.length = min N db.size ∧ res.Sublist db.GetBooks ∧
      (db.size ≤ N → res = db.GetBooks) := by
  obtain ⟨hsub, hlen⟩ := hstd db.books_ N g
  refine ⟨sample db.books_ N g, ?_, hlen, hsub, ?_⟩
  · simp [sampleRandomBooks, Nat.not_lt.2 hN]
  · intro hle
    apply hsub.eq_of_length
    rw [hlen]
    exact Nat.min_eq_right hle

end sample_lemmas

section comparator_lemmas

variable {D : Type}

theorem ranges_lexicographical_compare_irrefl (l : List Int) :
    ranges_lexicographical_compare l l = false := by
  induction l with
  | nil => rfl
  | cons x xs ih => simp [ranges_lexicographical_compare, ih]

theorem ranges_lexicographical_compare_total (a b : List Int)
    (hab : ranges_lexicographical_compare a b = false)
    (hba : ranges_lexicographical_compare b a = false) : a = b := by
  induction a generalizing b with
  | nil =>
    cases b with
    | nil => rfl
    | cons y ys => simp [ranges_lexicographical_compare] at hab
  | cons x xs ih =>
    cases b with
    | nil => simp [ranges_lexicographical_compare] at hba
    | cons y ys =>
      rcases lt_trichotomy x y with h | h | h
      · simp [ranges_lexicographical_compare, h] at hab
      · subst h
        simp only [ranges_lexicographical_compare, lt_irrefl, if_false] at hab hba
        rw [ih ys hab hba]
      · simp [ranges_lexicographical_compare, h] at hba

theorem ranges_lexicographical_compare_trans (a b c : List Int)
    (hab : ranges_lexicographical_compare a b = true)
    (hbc : ranges_lexicographical_compare b c = true) :
    ranges_lexicographical_compare a c = true := by
  induction a generalizing b c with
  | nil =>
    cases c with
    | nil => cases b <;> simp [ranges_lexicographical_compare] at hbc
    | cons z zs => rfl
  | cons x xs ih =>
    cases b with
    | nil => simp [ranges_lexicographical_compare] at hab
    | cons y ys =>
      cases c with
      | nil => simp [ranges_lexicographical_compare] at hbc
      | cons z zs =>
        rcases lt_trichotomy x y with h1 | h1 | h1
        · rcases lt_trichotomy y z with h2 | h2 | h2
          · simp [ranges_lexicographical_compare, lt_trans h1 h2]
          · subst h2; simp [ranges_lexicographical_compare, h1]
          · simp [ranges_lexicographical_compare, h2, lt_asymm h2] at hbc
        · subst h1
          rcases lt_trichotomy x z with h2 | h2 | h2
          · simp [ranges_lexicographical_compare, h2]
          · subst h2
            simp only [ranges_lexicographical_compare, lt_irrefl, if_false] at hab hbc ⊢
            exact ih ys zs hab hbc
          · simp [ranges_lexicographical_compare, h2, lt_asymm h2] at hbc
        · simp [ranges_lexicographical_compare, h1, lt_asymm h1] at hab

theorem LessByAuthor_strictWeak :
    StrictWeakOrdering (comp.LessByAuthor : Book D → Book D → Bool) where
  irrefl := fun a => ranges_lexicographical_compare_irrefl (plain_chars a.author)
  trans := fun _ _ _ hab hbc => ranges_lexicographical_compare_trans _ _ _ hab hbc
  incomp_trans := fun a b c hab hba hbc hcb => by
    have h1 : plain_chars a.author = plain_chars b.author :=
      ranges_lexicographical_compare_total _ _ hab hba
    have h2 : plain_chars b.author = plain_chars c.author :=
      ranges_lexicographical_compare_total _ _ hbc hcb
    simp only [comp.LessByAuthor, h1, h2, ranges_lexicographical_compare_irrefl, and_self]

theorem LessByAuthor_plain_char_order :
    comp.LessByAuthor (Book.ofGenre "Germinal" "Émile Zola" 1885 Genre.Fiction (4 : ℚ) 1)
        (Book.ofGenre "White Teeth" "Zadie Smith" 2000 Genre.Fiction (4 : ℚ) 1) = true ∧
    comp.LessByAuthor (Book.ofGenre "White Teeth" "Zadie Smith" 2000 Genre.Fiction (4 : ℚ) 1)
        (Book.ofGenre "Germinal" "Émile Zola" 1885 Genre.Fiction (4 : ℚ) 1) = false ∧
    TransparentStringLess "Zadie Smith" "Émile Zola" = true := by
  decide

theorem LessByPopularity_strictWeak :
    StrictWeakOrdering (comp.LessByPopularity : Book D → Book D → Bool) where
  irrefl := fun a => by simp [comp.LessByPopularity]
  trans := fun a b c hab hbc => by
    simp only [comp.LessByPopularity, decide_eq_true_eq] at *
    omega
  incomp_trans := fun a b c hab hba hbc hcb => by
    simp only [comp.LessByPopularity, decide_eq_false_iff_not, gt_iff_lt, not_lt] at *
    constructor <;> omega

theorem LessByRating_strictWeak_of_gt [DoubleArith D]
    (h : StrictWeakOrdering (fun x y : D => DoubleArith.gt x y)) :
    StrictWeakOrdering (comp.LessByRating : Book D → Book D → Bool) where
  irrefl := fun a => h.irrefl a.rating
  trans := fun a b c hab hbc => h.trans a.rating b.rating c.rating hab hbc
  incomp_trans := fun a b c hab hba hbc hcb =>
    h.incomp_trans a.rating b.rating c.rating hab hba hbc hcb

theorem Float64_gt_irrefl (x : Float64) : DoubleArith.gt x x = false := by
  cases x <;> simp [DoubleArith.gt]

theorem Float64_gt_trans (x y z : Float64) (hxy : DoubleArith.gt x y = true)
    (hyz : DoubleArith.gt y z = true) : DoubleArith.gt x z = true := by
  cases x <;> cases y <;> cases z <;> simp [DoubleArith.gt] at hxy hyz ⊢
  exact lt_trans hyz hxy

theorem Float64_incomp_trans (x y z : Float64) (hy : y ≠ Float64.nan)
    (hxy : DoubleArith.gt x y = false) (hyx : DoubleArith.gt y x = false)
    (hyz : DoubleArith.gt y z = false) (hzy : DoubleArith.gt z y = false) :
    DoubleArith.gt x z = false ∧ DoubleArith.gt z x = false := by
  cases x <;> cases y <;> cases z <;> simp [DoubleArith.gt] at hxy hyx hyz hzy hy ⊢
  exact ⟨le_trans hxy hyz, le_trans hzy hyx⟩

end comparator_lemmas

section reachable_lemmas

variable {D : Type}

theorem AuthorsExact_of_perm (db db2 : BookDatabase D) (hperm : db2.books_.Perm db.books_)
    (hauth : db2.authors_ = db.authors_) (h : AuthorsExact db) : AuthorsExact db2 := by
  obtain ⟨hmem, hnd⟩ := h
  refine ⟨fun a => ?_, by rw [hauth]; exact hnd⟩
  rw [hauth, hmem a]
  constructor
  · rintro ⟨b, hb, hba⟩
    exact ⟨b, hperm.mem_iff.2 hb, hba⟩
  · rintro ⟨b, hb, hba⟩
    exact ⟨b, hperm.mem_iff.1 hb, hba⟩

theorem getTopNBy_books_perm
    (nth_element : (Book D → Book D → Bool) → List (Book D) → Nat → List (Book D))
    (hstd : NthElementContract nth_element) (db : BookDatabase D) (N : Nat)
    (comp : Book D → Book D → Bool) (hcomp : StrictWeakOrdering comp) :
    (getTopNBy nth_element db N comp).1.books_.Perm db.books_ :=
  (hstd comp hcomp db.books_ (min N db.size) (Nat.min_le_right _ _)).1

theorem Reachable.authorsExact
    {nth_element : (Book D → Book D → Bool) → List (Book D) → Nat → List (Book D)}
    (hstd : NthElementContract nth_element) {db : BookDatabase D}
    (h : Reachable nth_element db) : AuthorsExact db := by
  induction h with
  | empty => exact AuthorsExact_empty
  | insertion db call _ ih =>
    rw [Insertion.apply_eq]
    exact AuthorsExact_PushBack db _ ih
  | clear db _ _ => exact AuthorsExact_empty
  | topN db N comp hcomp _ ih =>
    exact AuthorsExact_of_perm db _ (getTopNBy_books_perm nth_element hstd db N comp hcomp) rfl ih

theorem Reachable.run {nth_element : (Book D → Book D → Bool) → List (Book D) → Nat → List (Book D)}
    (db : BookDatabase D) (calls : List (Insertion D)) (h : Reachable nth_element db) :
    Reachable nth_element (Insertion.run db calls) := by
  induction calls generalizing db with
  | nil => exact h
  | cons call rest ih => exact ih _ (Reachable.insertion db call h)

end reachable_lemmas

section storage_lemmas

variable {D : Type}

theorem AuthorContainer.emplace_pos_spec (authors : AuthorContainer) (key : String) :
    (AuthorContainer.emplace_pos authors key).1 =
        (if key ∈ authors then authors else authors ++ [key]) ∧
    (AuthorContainer.emplace_pos authors key).1[(AuthorContainer.emplace_pos authors key).2.1]? =
      some key := by
  unfold AuthorContainer.emplace_pos
  by_cases h : authors.findIdx (fun a => TransparentStringEqual a key) < authors.length
  · have hp : TransparentStringEqual
        (authors[authors.findIdx (fun a => TransparentStringEqual a key)]) key = true :=
      @List.findIdx_getElem _ (fun a => TransparentStringEqual a key) authors h
    rw [TransparentStringEqual_iff] at hp
    have hmem : key ∈ authors := by
      rw [← hp]
      exact List.getElem_mem h
    simp only [h, if_true, hmem]
    exact ⟨trivial, by rw [List.getElem?_eq_getElem h, hp]⟩
  · have hnot : key ∉ authors := by
      intro hmem
      exact h (List.findIdx_lt_length_of_exists
        ⟨key, hmem, (TransparentStringEqual_iff key key).2 rfl⟩)
    simp only [h, if_false, hnot]
    exact ⟨trivial, List.getElem?_concat_length authors key⟩

theorem StoredDatabase.AddAuthor_book (authors : AuthorContainer) (value : StoredBook D) :
    (StoredDatabase.AddAuthor authors value).2.1.book = value.book := by
  have h := (AuthorContainer.emplace_pos_spec authors value.book.author).2
  simp only [StoredDatabase.AddAuthor, List.getD_eq_getElem?_getD, h, Option.getD_some]

theorem StoredDatabase.values_PushBack (db : StoredDatabase D) (elem : StoredBook D) :
    (db.PushBack elem).values = db.values.PushBack elem.book := by
  rw [BookDatabase.PushBack_eq]
  have h1 := StoredDatabase.AddAuthor_book db.authors_ elem
  have h2 := (AuthorContainer.emplace_pos_spec db.authors_ elem.book.author).1
  simp only [StoredDatabase.values, StoredDatabase.PushBack, List.map_append, List.map_cons,
    List.map_nil, h1]
  congr 1

theorem StoredDatabase.Canonical_empty :
    StoredDatabase.Canonical (StoredDatabase.empty : StoredDatabase D) := by
  simp [StoredDatabase.Canonical, StoredDatabase.empty]

theorem StoredDatabase.Canonical_PushBack (db : StoredDatabase D) (elem : StoredBook D)
    (h : db.Canonical) : (db.PushBack elem).Canonical := by
  obtain ⟨hbound, hnd⟩ := h
  have hspec := AuthorContainer.emplace_pos_spec db.authors_ elem.book.author
  have hbook := StoredDatabase.AddAuthor_book db.authors_ elem
  have hkeep : ∀ (pos : Nat) (x : String), db.authors_[pos]? = some x →
      (AuthorContainer.emplace_pos db.authors_ elem.book.author).1[pos]? = some x := by
    intro pos x hx
    rw [hspec.1]
    split_ifs
    · exact hx
    · have hlt : pos < db.authors_.length := (List.getElem?_eq_some_iff.1 hx).1
      rw [List.getElem?_append_left hlt]
      exact hx
  refine ⟨?_, ?_⟩
  · intro r hr
    simp only [StoredDatabase.PushBack, List.mem_append, List.mem_singleton] at hr
    rcases hr with hr | hr
    · obtain ⟨pos, hpos, htext⟩ := hbound r hr
      exact ⟨pos, hpos, hkeep pos _ htext⟩
    · refine ⟨(AuthorContainer.emplace_pos db.authors_ elem.book.author).2.1, ?_, ?_⟩
      · rw [hr]; rfl
      · rw [hr, hbook]
        exact hspec.2
  · show (AuthorContainer.emplace_pos db.authors_ elem.book.author).1.Nodup
    rw [hspec.1]
    split_ifs with hmem
    · exact hnd
    · exact List.Nodup.append hnd (List.nodup_singleton _) (by simpa using hmem)

theorem StoredDatabase.Reachable.canonical
    {nth_element : (StoredBook D → StoredBook D → Bool) → List (StoredBook D) → Nat →
      List (StoredBook D)}
    (hstd : NthElementContract nth_element) {db : StoredDatabase D}
    (h : StoredDatabase.Reachable nth_element db) : db.Canonical := by
  induction h with
  | empty => exact StoredDatabase.Canonical_empty
  | insertion db author_data call _ ih => exact StoredDatabase.Canonical_PushBack db _ ih
  | clear db _ _ => exact StoredDatabase.Canonical_empty
  | topN db N comp hcomp _ ih =>
    have hperm : (StoredDatabase.getTopNBy nth_element db N comp).1.books_.Perm db.books_ :=
      (hstd comp hcomp db.books_ (min N db.books_.length) (Nat.min_le_right _ _)).1
    exact ⟨fun r hr => ih.1 r (hperm.mem_iff.1 hr), ih.2⟩

theorem StoredDatabase.Canonical.same_storage {db : StoredDatabase D} (h : db.Canonical)
    (r1 r2 : StoredBook D) (h1 : r1 ∈ db.books_) (h2 : r2 ∈ db.books_)
    (htext : r1.book.author = r2.book.author) : r1.author_data = r2.author_data := by
  obtain ⟨p1, hp1, ht1⟩ := h.1 r1 h1
  obtain ⟨p2, hp2, ht2⟩ := h.1 r2 h2
  obtain ⟨hl1, he1⟩ := List.getElem?_eq_some_iff.1 ht1
  obtain ⟨hl2, he2⟩ := List.getElem?_eq_some_iff.1 ht2
  have hpos : p1 = p2 := (h.2.getElem_inj_iff).1 (by rw [he1, he2, htext])
  rw [hp1, hp2, hpos]

theorem StrictWeakOrdering.comap {α β : Type} {comp : β → β → Bool}
    (h : StrictWeakOrdering comp) (f : α → β) :
    StrictWeakOrdering (fun a b => comp (f a) (f b)) where
  irrefl := fun a => h.irrefl (f a)
  trans := fun a b c => h.trans (f a) (f b) (f c)
  incomp_trans := fun a b c => h.incomp_trans (f a) (f b) (f c)

theorem storedFixture_reachable
    (nth_element : (StoredBook ℚ → StoredBook ℚ → Bool) → List (StoredBook ℚ) → Nat →
      List (StoredBook ℚ)) :
    StoredDatabase.Reachable nth_element storedFixture :=
  StoredDatabase.Reachable.insertion _ _ _
    (StoredDatabase.Reachable.insertion _ _ _
      (StoredDatabase.Reachable.insertion _ _ _ StoredDatabase.Reachable.empty))

theorem storedFixture_values : storedFixture.values = fixture := by
  decide

theorem storedFixture_storage :
    storedFixture.books_.map (fun r => r.author_data) =
      [Storage.authors 0, Storage.authors 0, Storage.authors 1] := by
  decide

end storage_lemmas

/-! ### The scenario of the test suite -/

theorem fixture_reachable
    (nth_element : (Book ℚ → Book ℚ → Bool) → List (Book ℚ) → Nat → List (Book ℚ)) :
    Reachable nth_element fixture :=
  Reachable.run _ _ Reachable.empty

theorem fixture_top2_perm
    (nth_element : (Book ℚ → Book ℚ → Bool) → List (Book ℚ) → Nat → List (Book ℚ))
    (hstd : NthElementContract nth_element) :
    (getTopNBy nth_element fixture 2 comp.LessByRating).2.Perm
      [Book.ofGenre "Animal Farm" "George Orwell" 1945 Genre.Fiction (mkRat 22 5) 143,
       Book.ofGenre "The Great Gatsby" "F. Scott Fitzgerald" 1925 Genre.Fiction (mkRat 9 2)
         120] := by
  have hb : fixture.books_ =
      [Book.ofGenre "1984" "George Orwell" 1949 Genre.SciFi 4 190,
       Book.ofGenre "Animal Farm" "George Orwell" 1945 Genre.Fiction (mkRat 22 5) 143,
       Book.ofGenre "The Great Gatsby" "F. Scott Fitzgerald" 1925 Genre.Fiction (mkRat 9 2)
         120] := by
    decide
  have hsize : min 2 fixture.size = 2 := by decide
  obtain ⟨hperm, -, hpart⟩ :=
    hstd comp.LessByRating LessByRating_exactRationals fixture.books_ 2 (by decide)
  simp only [getTopNBy, hsize]
  generalize nth_element comp.LessByRating fixture.books_ 2 = after at hperm hpart ⊢
  rw [hb] at hperm
  have hlen : after.length = 3 := by simpa using hperm.length_eq
  match after, hlen with
  | [x, y, z], _ =>
    simp only [List.take, List.drop, List.mem_cons, List.mem_singleton, List.not_mem_nil,
      or_false, forall_eq_or_imp, forall_eq] at hpart
    obtain ⟨hzx, hzy⟩ := hpart
    have hz : z ∈ [x, y, z] := by simp
    have hx : x ∈ [x, y, z] := by simp
    have hy : y ∈ [x, y, z] := by simp
    rw [hperm.mem_iff] at hz hx hy
    simp only [List.mem_cons, List.mem_singleton, List.not_mem_nil, or_false] at hz hx hy
    have hnd : [x, y, z].Nodup := hperm.nodup_iff.2 (by decide)
    simp only [List.nodup_cons, List.mem_cons, List.mem_singleton, List.not_mem_nil,
      or_false, not_or, List.nodup_nil, and_true, not_false_eq_true] at hnd
    obtain ⟨⟨hxy, hxz⟩, hyz⟩ := hnd
    rcases hz with hz | hz | hz
    · -- the record left out is the lowest-rated one
      subst hz
      have h2 : [x, y, Book.ofGenre "1984" "George Orwell" 1949 Genre.SciFi 4 190].Perm
          (Book.ofGenre "1984" "George Orwell" 1949 Genre.SciFi 4 190 :: [x, y]) :=
        (List.perm_append_comm : ([x, y] ++ [_]).Perm ([_] ++ [x, y]))
      exact (h2.symm.trans hperm).cons_inv
    · subst hz
      rcases hx with hx | hx | hx
      · subst hx
        exact absurd hzx (by decide)
      · exact absurd hx hxz
      · subst hx
        rcases hy with hy | hy | hy
        · subst hy
          exact absurd hzy (by decide)
        · exact absurd hy hyz
        · exact absurd hy.symm hxy
    · subst hz
      rcases hx with hx | hx | hx
      · subst hx
        exact absurd hzx (by decide)
      · subst hx
        rcases hy with hy | hy | hy
        · subst hy
          exact absurd hzy (by decide)
        · exact absurd hy.symm hxy
        · exact absurd hy hyz
      · exact absurd hx hxz

theorem fixture_books :
    fixture.GetBooks =
      [Book.ofGenre "1984" "George Orwell" 1949 Genre.SciFi 4 190,
       Book.ofGenre "Animal Farm" "George Orwell" 1945 Genre.Fiction (mkRat 22 5) 143,
       Book.ofGenre "The Great Gatsby" "F. Scott Fitzgerald" 1925 Genre.Fiction (mkRat 9 2)
         120] := by
  decide

theorem fixture_authors :
    fixture.GetAuthors = ["George Orwell", "F. Scott Fitzgerald"] := by
  decide

theorem fixture_histogram :
    buildAuthorHistogramFlat TransparentStringLess fixture =
      [("F. Scott Fitzgerald", 1), ("George Orwell", 2)] := by
  decide

theorem fixture_year_filter :
    (filterBooks fixture.GetBooks (YearBetween 1940 1950)).map (fun b => b.title) =
      ["1984", "Animal Farm"] := by
  decide

theorem fixture_composite_filter :
    (filterBooks fixture.GetBooks
        (all_of [YearBetween 1900 2000, RatingAbove (mkRat 43 10), GenreIs Genre.Fiction])).map
      (fun b => b.title) = ["Animal Farm", "The Great Gatsby"] := by
  decide

theorem fixture_average : calculateAverageRating fixture = 43 / 10 := by
  have hb : fixture.books_ = _ := fixture_books
  simp only [calculateAverageRating, BookDatabase.size, hb]
  norm_num [accumulate, DoubleArith.add, DoubleArith.div, DoubleArith.zero, DoubleArith.ofSize,
    Book.ofGenre]

theorem fixture_genre_ratings :
    calculateGenreRatings fixture = [(Genre.Fiction, 89 / 20), (Genre.SciFi, 4)] := by
  have hb : fixture.books_ = _ := fixture_books
  rw [calculateGenreRatings_eq_map, hb]
  simp [fmGenreInfo, flat_map.update, genreLess, Book.ofGenre, Genre.Fiction, Genre.SciFi,
    GenreInfo.init, DoubleArith.add, DoubleArith.div, DoubleArith.zero, DoubleArith.ofSize]
  norm_num

/-- C3: `GenreFromString` is total; it yields each of the five named genres for
exactly its own label, `Unknown` for every other string, and a record built from
a text label carries `GenreFromString label`. -/
theorem GenreFromString_spec (s : String) :
    (GenreFromString s = Genre.Fiction ↔ s = "Fiction") ∧
    (GenreFromString s = Genre.NonFiction ↔ s = "NonFiction") ∧
    (GenreFromString s = Genre.SciFi ↔ s = "SciFi") ∧
    (GenreFromString s = Genre.Biography ↔ s = "Biography") ∧
    (GenreFromString s = Genre.Mystery ↔ s = "Mystery") ∧
    (GenreFromString s = Genre.Unknown ↔
      s ∉ ["Fiction", "NonFiction", "SciFi", "Biography", "Mystery"]) ∧
    ∀ (D : Type) (title author : String) (year : Int) (rating : D) (read_count : Int),
      (Book.ofLabel title author year s rating read_count).genre = GenreFromString s := by
  have key : GenreFromString s =
      if s = "Fiction" then Genre.Fiction else if s = "NonFiction" then Genre.NonFiction
      else if s = "SciFi" then Genre.SciFi else if s = "Biography" then Genre.Biography
      else if s = "Mystery" then Genre.Mystery else Genre.Unknown := by
    unfold GenreFromString genres
    by_cases h1 : s = "Fiction"
    · subst h1; decide
    by_cases h2 : s = "NonFiction"
    · subst h2; decide
    by_cases h3 : s = "SciFi"
    · subst h3; decide
    by_cases h4 : s = "Biography"
    · subst h4; decide
    by_cases h5 : s = "Mystery"
    · subst h5; decide
    have e1 : ("Fiction" == s) = false := beq_eq_false_iff_ne.2 (Ne.symm h1)
    have e2 : ("NonFiction" == s) = false := beq_eq_false_iff_ne.2 (Ne.symm h2)
    have e3 : ("SciFi" == s) = false := beq_eq_false_iff_ne.2 (Ne.symm h3)
    have e4 : ("Biography" == s) = false := beq_eq_false_iff_ne.2 (Ne.symm h4)
    have e5 : ("Mystery" == s) = false := beq_eq_false_iff_ne.2 (Ne.symm h5)
    simp [List.find?, e1, e2, e3, e4, e5, h1, h2, h3, h4, h5]
  refine ⟨?_, ?_, ?_, ?_, ?_, ?_, fun _ _ _ _ _ _ => rfl⟩ <;> rw [key] <;>
    by_cases h1 : s = "Fiction" <;> by_cases h2 : s = "NonFiction" <;>
    by_cases h3 : s = "SciFi" <;> by_cases h4 : s = "Biography" <;>
    by_cases h5 : s = "Mystery" <;>
    simp_all [Genre.Fiction, Genre.NonFiction, Genre.SciFi, Genre.Biography, Genre.Mystery,
      Genre.Unknown]

/-- C2: `PushBack(b)` is total; the database afterwards has one record more, its
last record is `b` field for field, the records before it are the old ones in the
old order, the author set gains `b.author` when it was absent and is unchanged
when it was present; `EmplaceBack` with the fields of `b` does the same and
returns the appended record. -/
theorem PushBack_spec {D : Type} (db : BookDatabase D) (b : Book D) :
    (db.PushBack b).size = db.size + 1 ∧
    (db.PushBack b).GetBooks.getLast? = some b ∧
    (db.PushBack b).GetBooks.take db.size = db.GetBooks ∧
    (b.author ∉ db.GetAuthors →
      (db.PushBack b).GetAuthors.length = db.GetAuthors.length + 1 ∧
      ∀ a, a ∈ (db.PushBack b).GetAuthors ↔ a ∈ db.GetAuthors ∨ a = b.author) ∧
    (b.author ∈ db.GetAuthors → (db.PushBack b).GetAuthors = db.GetAuthors) ∧
    db.EmplaceBack b.title b.author b.year b.genre b.rating b.read_count = (db.PushBack b, b) ∧
    ∀ genre_str : String,
      db.EmplaceBackLabel b.title b.author b.year genre_str b.rating b.read_count =
        (db.PushBack { b with genre := GenreFromString genre_str },
          { b with genre := GenreFromString genre_str }) := by
  refine ⟨?_, ?_, ?_, ?_, ?_, ?_, ?_⟩
  · simp [BookDatabase.PushBack_eq, BookDatabase.size]
  · simp [BookDatabase.PushBack_eq, BookDatabase.GetBooks]
  · simp [BookDatabase.PushBack_eq, BookDatabase.GetBooks, BookDatabase.size]
  · intro h
    simp only [BookDatabase.GetAuthors] at h
    simp [BookDatabase.PushBack_eq, BookDatabase.GetAuthors, h]
  · intro h
    simp only [BookDatabase.GetAuthors] at h
    simp [BookDatabase.PushBack_eq, BookDatabase.GetAuthors, h]
  · simp [BookDatabase.EmplaceBack, BookDatabase.PushBack, BookDatabase.AddAuthor_eq,
      Book.ofGenre]
  · intro genre_str
    simp [BookDatabase.EmplaceBackLabel, BookDatabase.PushBack, BookDatabase.AddAuthor_eq,
      Book.ofLabel]

/-- C1: after any sequence of `PushBack` / `EmplaceBack` calls on an empty
database the stored records are the inserted ones, the author set holds exactly
the author texts of the stored records, each once, so its size is the number of
distinct author texts, whatever the order of the calls. -/
theorem GetAuthors_distinct_authors {D : Type} (calls : List (Insertion D)) :
    (Insertion.run BookDatabase.empty calls).GetBooks = calls.map Insertion.record ∧
    (∀ a, a ∈ (Insertion.run BookDatabase.empty calls).GetAuthors ↔
      ∃ b ∈ (Insertion.run BookDatabase.empty calls).GetBooks, b.author = a) ∧
    (Insertion.run BookDatabase.empty calls).GetAuthors.Nodup ∧
    (Insertion.run BookDatabase.empty calls).GetAuthors.length =
      ((calls.map (fun c => c.record.author)).toFinset).card ∧
    ∀ calls2 : List (Insertion D), calls2.Perm calls →
      (Insertion.run BookDatabase.empty calls2).GetAuthors.length =
        (Insertion.run BookDatabase.empty calls).GetAuthors.length := by
  have hbooks : ∀ cs : List (Insertion D),
      (Insertion.run BookDatabase.empty cs).books_ = cs.map Insertion.record := by
    intro cs
    simp [Insertion.run_books, BookDatabase.empty]
  have hlen : ∀ cs : List (Insertion D),
      (Insertion.run BookDatabase.empty cs).authors_.length =
        ((cs.map (fun c => c.record.author)).toFinset).card := by
    intro cs
    rw [AuthorsExact.length_eq _ (Insertion.run_AuthorsExact _ cs AuthorsExact_empty), hbooks]
    simp [List.map_map, Function.comp_def]
  have hinv : AuthorsExact (Insertion.run (BookDatabase.empty : BookDatabase D) calls) :=
    Insertion.run_AuthorsExact _ calls AuthorsExact_empty
  refine ⟨hbooks calls, hinv.1, hinv.2, hlen calls, ?_⟩
  intro calls2 hperm
  simp only [BookDatabase.GetAuthors]
  rw [hlen, hlen]
  congr 1
  ext a
  simp only [List.mem_toFinset, List.mem_map]
  constructor
  · rintro ⟨c, hc, rfl⟩
    exact ⟨c, hperm.mem_iff.1 hc, rfl⟩
  · rintro ⟨c, hc, rfl⟩
    exact ⟨c, hperm.mem_iff.2 hc, rfl⟩

/-- C4: over the full range of a database `filterBooks` returns the records that
satisfy the predicate, position by position in their original order: it is the
sub-sequence selected by the predicate, and it is empty for an empty database. -/
theorem filterBooks_spec {D : Type} (db : BookDatabase D) (p : Book D → Bool) :
    filterBooks db.GetBooks p = db.GetBooks.filter p ∧
    (filterBooks db.GetBooks p).Sublist db.GetBooks ∧
    (∀ r, r ∈ filterBooks db.GetBooks p ↔ r ∈ db.GetBooks ∧ p r = true) ∧
    (∀ q : Book D → Bool, (filterBooks db.GetBooks p).countP q =
      db.GetBooks.countP (fun r => p r && q r)) ∧
    filterBooks (BookDatabase.empty : BookDatabase D).GetBooks p = [] := by
  refine ⟨filterBooks_eq_filter _ _, ?_, ?_, ?_, ?_⟩
  · rw [filterBooks_eq_filter]
    exact List.filter_sublist _
  · intro r
    rw [filterBooks_eq_filter, List.mem_filter]
  · intro q
    rw [filterBooks_eq_filter, List.countP_filter]
    congr 1
    funext r
    exact Bool.and_comm _ _
  · rfl

/-- C5: `all_of(p1, ..., pn)` holds of a record exactly when every `pi` does, and
`any_of(p1, ..., pn)` exactly when some `pi` does (for every n, zero included);
filtering with `all_of(YearBetween(lo, hi), RatingAbove(r), GenreIs(g))` keeps, in
the original order, the records with `lo <= year <= hi`, `rating > r` and genre
`g`. -/
theorem all_of_any_of_spec {D : Type} [DoubleArith D] (ps : List (Book D → Bool))
    (b : Book D) :
    (all_of ps b = true ↔ ∀ p ∈ ps, p b = true) ∧
    (any_of ps b = true ↔ ∃ p ∈ ps, p b = true) ∧
    ∀ (range : List (Book D)) (lo hi : Int) (r : D) (g : Genre),
      filterBooks range (all_of [YearBetween lo hi, RatingAbove r, GenreIs g]) =
        range.filter (fun x => decide (lo ≤ x.year ∧ x.year ≤ hi ∧
          DoubleArith.gt x.rating r = true ∧ x.genre = g)) := by
  refine ⟨all_of_iff ps b, any_of_iff ps b, ?_⟩
  intro range lo hi r g
  rw [filterBooks_eq_filter]
  congr 1
  funext x
  simp [all_of, YearBetween, RatingAbove, GenreIs, Bool.and_assoc]

/-- C6: filtering a sequence with `all_of()` (no predicate) returns the sequence
unchanged, and filtering it with `any_of()` (no predicate) returns the empty
sequence. -/
theorem filterBooks_empty_pack {D : Type} (seq : List (Book D)) :
    filterBooks seq (all_of []) = seq ∧ filterBooks seq (any_of []) = [] := by
  constructor
  · rw [filterBooks_eq_filter]
    exact List.filter_eq_self.2 (fun _ _ => rfl)
  · rw [filterBooks_eq_filter]
    exact List.filter_eq_nil_iff.2 (fun _ _ => by simp [any_of])

/-- C7: the entries of `buildAuthorHistogramFlat(db)` are exactly the pairs of an
author text that occurs in `db` and the number of records of `db` with that
author; no other text is a key, each key occurs once, `find` returns that number,
and the histogram of an empty database is empty. -/
theorem buildAuthorHistogramFlat_spec {D : Type} (db : BookDatabase D) (a : String) :
    (∀ n, (a, n) ∈ buildAuthorHistogramFlat TransparentStringLess db ↔
      n = db.GetBooks.countP (fun b => decide (b.author = a)) ∧ ∃ b ∈ db.GetBooks, b.author = a) ∧
    (a ∈ (buildAuthorHistogramFlat TransparentStringLess db).map Prod.fst ↔
      ∃ b ∈ db.GetBooks, b.author = a) ∧
    ((buildAuthorHistogramFlat TransparentStringLess db).map Prod.fst).Nodup ∧
    flat_map.find TransparentStringLess (buildAuthorHistogramFlat TransparentStringLess db) a =
      (if db.GetBooks.countP (fun b => decide (b.author = a)) = 0 then none
       else some (db.GetBooks.countP (fun b => decide (b.author = a)))) ∧
    buildAuthorHistogramFlat TransparentStringLess (BookDatabase.empty : BookDatabase D) = [] := by
  have hst := TransparentStringLess_strictTotal
  have hfind := histogram_find hst db.books_ a
  have hsorted := histogram_sorted hst db.books_
  have hpos : (∃ b ∈ db.books_, b.author = a) ↔
      db.books_.countP (fun b => decide (b.author = a)) ≠ 0 := by
    rw [Ne, List.countP_eq_zero]
    simp
  refine ⟨fun n => ?_, histogram_keys hst db.books_ a, pairwise_comp_nodup hst _ hsorted,
    hfind, rfl⟩
  simp only [BookDatabase.GetBooks, buildAuthorHistogramFlat]
  rw [hpos]
  constructor
  · intro hmem
    have := flat_map.find_some_of_mem hst _ a n hsorted hmem
    rw [hfind] at this
    split_ifs at this with hc
    simp only [Option.some.injEq] at this
    exact ⟨this.symm, hc⟩
  · rintro ⟨hn, hc⟩
    apply flat_map.mem_of_find_some TransparentStringLess _ a n hst.total
    rw [hfind, if_neg hc, hn]

/-- C8: the entries of `calculateGenreRatings(db)` are exactly the pairs of a genre
that some record of `db` has and the quotient of the ratings of the records of
that genre, summed in sequence order from `0.0`, by their count; a genre without
records is not a key, and each key occurs once. -/
theorem calculateGenreRatings_spec {D : Type} [DoubleArith D] (db : BookDatabase D)
    (g : Genre) :
    (∀ x, (g, x) ∈ calculateGenreRatings db ↔
      x = DoubleArith.div
            ((db.GetBooks.filter (fun b => decide (b.genre = g))).foldl
              (fun sum b => DoubleArith.add sum b.rating) DoubleArith.zero)
            (DoubleArith.ofSize (db.GetBooks.filter (fun b => decide (b.genre = g))).length) ∧
        ∃ b ∈ db.GetBooks, b.genre = g) ∧
    (g ∈ (calculateGenreRatings db).map Prod.fst ↔ ∃ b ∈ db.GetBooks, b.genre = g) ∧
    ((¬ ∃ b ∈ db.GetBooks, b.genre = g) →
      flat_map.find genreLess (calculateGenreRatings db) g = none) ∧
    ((calculateGenreRatings db).map Prod.fst).Nodup := by
  have hst := genreLess_strictTotal
  have hkeys : (calculateGenreRatings db).map Prod.fst = (fmGenreInfo db.books_).map Prod.fst := by
    rw [calculateGenreRatings_eq_map, List.map_map]
    rfl
  have hsorted : ((calculateGenreRatings db).map Prod.fst).Pairwise
      (fun a b => genreLess a b = true) := by
    rw [hkeys]
    exact fmGenreInfo_sorted db.books_
  have hpos : (∃ b ∈ db.books_, b.genre = g) ↔
      (db.books_.filter (fun b => decide (b.genre = g))).length ≠ 0 := by
    rw [Ne, List.length_eq_zero, List.filter_eq_nil_iff]
    simp
  have hfind : flat_map.find genreLess (calculateGenreRatings db) g =
      if (db.books_.filter (fun b => decide (b.genre = g))).length = 0 then none
      else some (DoubleArith.div
            ((db.books_.filter (fun b => decide (b.genre = g))).foldl
              (fun sum b => DoubleArith.add sum b.rating) DoubleArith.zero)
            (DoubleArith.ofSize (db.books_.filter (fun b => decide (b.genre = g))).length)) := by
    rw [calculateGenreRatings_eq_map,
      flat_map.find_map_values genreLess
        (fun info : GenreInfo D => DoubleArith.div info.rating (DoubleArith.ofSize info.count)),
      fmGenreInfo_find]
    split_ifs <;> rfl
  refine ⟨fun x => ?_, ?_, ?_, pairwise_comp_nodup hst _ hsorted⟩
  · simp only [BookDatabase.GetBooks]
    rw [hpos]
    constructor
    · intro hmem
      have := flat_map.find_some_of_mem hst _ g x hsorted hmem
      rw [hfind] at this
      split_ifs at this with hc
      simp only [Option.some.injEq] at this
      exact ⟨this.symm, hc⟩
    · rintro ⟨hx, hc⟩
      apply flat_map.mem_of_find_some genreLess _ g x hst.total
      rw [hfind, if_neg hc, hx]
  · rw [hkeys]
    exact fmGenreInfo_keys db.books_ g
  · intro hno
    simp only [BookDatabase.GetBooks] at hno
    rw [hfind, if_pos (by_contra fun hc => hno (hpos.2 hc))]

/-- C9: `calculateAverageRating` returns `0` for an empty database, and otherwise
the ratings summed in sequence order from `0.0`, divided by `size()`. -/
theorem calculateAverageRating_spec {D : Type} [DoubleArith D] (db : BookDatabase D) :
    calculateAverageRating (BookDatabase.empty : BookDatabase D) = DoubleArith.zero ∧
    calculateAverageRating db =
      (if db.size = 0 then DoubleArith.zero
       else DoubleArith.div
        (db.GetBooks.foldl (fun sum b => DoubleArith.add sum b.rating) DoubleArith.zero)
        (DoubleArith.ofSize db.size)) := by
  refine ⟨rfl, ?_⟩
  unfold calculateAverageRating
  rw [accumulate_eq_foldl]
  cases hb : db.books_ with
  | nil => simp [BookDatabase.size, hb]
  | cons b rest => simp [BookDatabase.size, BookDatabase.GetBooks, hb]

/-- C10: when `std::nth_element` meets its contract and `comp` is a strict weak
ordering, `getTopNBy(db, N, comp)` returns `min(N, size())` records; together with
the records it leaves out they are the records of `db`, position for position;
no record left out precedes a returned one under `comp`; and for `N >= size()`
all records of `db` are returned. -/
theorem getTopNBy_spec {D : Type}
    (nth_element : (Book D → Book D → Bool) → List (Book D) → Nat → List (Book D))
    (db : BookDatabase D) (N : Nat) (comp : Book D → Book D → Bool)
    (hstd : NthElementContract nth_element) (hcomp : StrictWeakOrdering comp) :
    (getTopNBy nth_element db N comp).2.length = min N db.size ∧
    (getTopNBy nth_element db N comp).2 =
      (getTopNBy nth_element db N comp).1.GetBooks.take (min N db.size) ∧
    ((getTopNBy nth_element db N comp).2 ++
        (getTopNBy nth_element db N comp).1.GetBooks.drop (min N db.size)).Perm db.GetBooks ∧
    (∀ r ∈ (getTopNBy nth_element db N comp).2,
      ∀ s ∈ (getTopNBy nth_element db N comp).1.GetBooks.drop (min N db.size),
        comp s r = false) ∧
    (db.size ≤ N → ((getTopNBy nth_element db N comp).2).Perm db.GetBooks) := by
  have hle : min N db.size ≤ db.books_.length := Nat.min_le_right _ _
  obtain ⟨hperm, -, hpart⟩ := hstd comp hcomp db.books_ (min N db.size) hle
  have hlen : (nth_element comp db.books_ (min N db.size)).length = db.books_.length :=
    hperm.length_eq
  simp only [getTopNBy, BookDatabase.GetBooks]
  refine ⟨?_, trivial, ?_, hpart, ?_⟩
  · rw [List.length_take, hlen]
    exact Nat.min_eq_left hle
  · rw [List.take_append_drop]
    exact hperm
  · intro hN
    have hmin : min N db.size = db.books_.length := Nat.min_eq_right hN
    rw [List.take_of_length_le (by rw [hlen, hmin])]
    exact hperm

/-- Witness for C10: the fixture of the test suite, `N = 2`, the comparator
`LessByRating` over exact rationals and the sorting implementation of
`std::nth_element` meet the two hypotheses, and the conclusion holds there. -/
theorem getTopNBy_spec_witness :
    NthElementContract
      (nth_element_sorting : (Book ℚ → Book ℚ → Bool) → List (Book ℚ) → Nat → List (Book ℚ)) ∧
    StrictWeakOrdering (comp.LessByRating : Book ℚ → Book ℚ → Bool) ∧
    (getTopNBy nth_element_sorting fixture 2 comp.LessByRating).2.length = min 2 fixture.size ∧
    (getTopNBy nth_element_sorting fixture 2 comp.LessByRating).2 =
      (getTopNBy nth_element_sorting fixture 2 comp.LessByRating).1.GetBooks.take
        (min 2 fixture.size) ∧
    ((getTopNBy nth_element_sorting fixture 2 comp.LessByRating).2 ++
        (getTopNBy nth_element_sorting fixture 2 comp.LessByRating).1.GetBooks.drop
          (min 2 fixture.size)).Perm fixture.GetBooks ∧
    (∀ r ∈ (getTopNBy nth_element_sorting fixture 2 comp.LessByRating).2,
      ∀ s ∈ (getTopNBy nth_element_sorting fixture 2 comp.LessByRating).1.GetBooks.drop
          (min 2 fixture.size),
        comp.LessByRating s r = false) ∧
    (fixture.size ≤ 2 →
      ((getTopNBy nth_element_sorting fixture 2 comp.LessByRating).2).Perm fixture.GetBooks) :=
  ⟨nth_element_sorting_contract, LessByRating_exactRationals,
    getTopNBy_spec nth_element_sorting fixture 2 comp.LessByRating nth_element_sorting_contract
      LessByRating_exactRationals⟩

/-- C12: `at(pos)` fails, with `std::out_of_range`, exactly when `pos >= size()`;
for `pos < size()` it returns the record stored at position `pos`, which after a
sequence of insertions into an empty database is the record of the call number
`pos`; the call is a pure read of the database. -/
theorem checked_at_spec {D : Type} (db : BookDatabase D) (pos : Nat) :
    (db.«at» pos = Except.error Exception.out_of_range ↔ db.size ≤ pos) ∧
    ((∃ e, db.«at» pos = Except.error e) ↔ db.size ≤ pos) ∧
    (∀ h : pos < db.GetBooks.length, db.«at» pos = Except.ok (db.GetBooks.get ⟨pos, h⟩)) ∧
    (∀ (calls : List (Insertion D)) (h : pos < calls.length),
      (Insertion.run BookDatabase.empty calls).«at» pos =
        Except.ok (calls.get ⟨pos, h⟩).record) := by
  refine ⟨?_, ?_, ?_, ?_⟩
  · unfold BookDatabase.«at» BookDatabase.size
    by_cases h : pos < db.books_.length
    · simp [h]
    · simp [h, Nat.le_of_not_lt h]
  · unfold BookDatabase.«at» BookDatabase.size
    by_cases h : pos < db.books_.length
    · simp [h]
    · simp [h, Nat.le_of_not_lt h]
  · intro h
    simp only [BookDatabase.GetBooks] at h
    simp [BookDatabase.«at», BookDatabase.GetBooks, h]
  · intro calls h
    have hb : (Insertion.run (BookDatabase.empty : BookDatabase D) calls).books_ =
        calls.map Insertion.record := by
      simp [Insertion.run_books, BookDatabase.empty]
    unfold BookDatabase.«at»
    simp [hb, h]

/-- C15: `Clear()` yields the state of a freshly constructed database (size 0,
`empty()` true, no records, no authors); insertions after it behave as on an
empty database, so the author set afterwards holds exactly the authors inserted
after the `Clear`. -/
theorem Clear_spec {D : Type} (db : BookDatabase D) :
    db.Clear = BookDatabase.empty ∧
    db.Clear.size = 0 ∧
    db.Clear.is_empty = true ∧
    db.Clear.GetBooks = [] ∧
    db.Clear.GetAuthors = [] ∧
    ∀ calls : List (Insertion D),
      Insertion.run db.Clear calls = Insertion.run BookDatabase.empty calls ∧
      ∀ a, a ∈ (Insertion.run db.Clear calls).GetAuthors ↔
        ∃ c ∈ calls, c.record.author = a := by
  refine ⟨rfl, rfl, rfl, rfl, rfl, fun calls => ⟨rfl, fun a => ?_⟩⟩
  have hinv : AuthorsExact (Insertion.run (BookDatabase.empty : BookDatabase D) calls) :=
    Insertion.run_AuthorsExact _ calls AuthorsExact_empty
  have hb : (Insertion.run (BookDatabase.empty : BookDatabase D) calls).books_ =
      calls.map Insertion.record := by
    simp [Insertion.run_books, BookDatabase.empty]
  show a ∈ (Insertion.run (BookDatabase.empty : BookDatabase D) calls).authors_ ↔ _
  rw [hinv.1 a, hb]
  simp

/-- C17: `YearBetween(min, max)` accepts a record exactly when
`min <= year <= max`; a year equal to either bound is accepted, and no record is
accepted when `min > max`. -/
theorem YearBetween_spec {D : Type} (minYear maxYear : Int) (b : Book D) :
    (YearBetween minYear maxYear b = true ↔ minYear ≤ b.year ∧ b.year ≤ maxYear) ∧
    (b.year = minYear → minYear ≤ maxYear → YearBetween minYear maxYear b = true) ∧
    (b.year = maxYear → minYear ≤ maxYear → YearBetween minYear maxYear b = true) ∧
    (maxYear < minYear → YearBetween minYear maxYear b = false) := by
  have hiff : YearBetween minYear maxYear b = true ↔ minYear ≤ b.year ∧ b.year ≤ maxYear := by
    simp [YearBetween]
  refine ⟨hiff, ?_, ?_, ?_⟩
  · intro h1 h2
    exact hiff.2 ⟨by omega, by omega⟩
  · intro h1 h2
    exact hiff.2 ⟨by omega, by omega⟩
  · intro h
    cases hy : YearBetween minYear maxYear b with
    | false => rfl
    | true =>
      have := hiff.1 hy
      omega

/-- C18: `RatingAbove(t)` accepts a record exactly when `rating > t`; as `>` on
`double` is irreflexive, a record whose rating equals `t` is rejected, and on the
fixture `RatingAbove(4.4)` keeps the 4.5-rated book only. -/
theorem RatingAbove_spec {D : Type} [DoubleArith D] (t : D) (b : Book D)
    (hirr : ∀ x : D, DoubleArith.gt x x = false) :
    (RatingAbove t b = true ↔ DoubleArith.gt b.rating t = true) ∧
    (b.rating = t → RatingAbove t b = false) ∧
    (filterBooks fixture.GetBooks (RatingAbove (mkRat 22 5))).map (fun r => r.title) =
      ["The Great Gatsby"] := by
  refine ⟨Iff.rfl, ?_, by decide⟩
  intro h
  simp [RatingAbove, h, hirr]

/-- Witness for C18: `>` on the rationals is irreflexive, and the 4.4-rated record
of the fixture is rejected by `RatingAbove(4.4)`. -/
theorem RatingAbove_spec_witness :
    (∀ x : ℚ, DoubleArith.gt x x = false) ∧
    (RatingAbove (mkRat 22 5)
        (Book.ofGenre "Animal Farm" "George Orwell" 1945 Genre.Fiction (mkRat 22 5) 143) = true ↔
      DoubleArith.gt (Book.ofGenre "Animal Farm" "George Orwell" 1945 Genre.Fiction
        (mkRat 22 5) 143).rating (mkRat 22 5) = true) ∧
    ((Book.ofGenre "Animal Farm" "George Orwell" 1945 Genre.Fiction (mkRat 22 5) 143).rating =
        mkRat 22 5 →
      RatingAbove (mkRat 22 5)
        (Book.ofGenre "Animal Farm" "George Orwell" 1945 Genre.Fiction (mkRat 22 5) 143) =
        false) ∧
    (filterBooks fixture.GetBooks (RatingAbove (mkRat 22 5))).map (fun r => r.title) =
      ["The Great Gatsby"] :=
  ⟨fun x => by simp [DoubleArith.gt],
    RatingAbove_spec (mkRat 22 5)
      (Book.ofGenre "Animal Farm" "George Orwell" 1945 Genre.Fiction (mkRat 22 5) 143)
      (fun x => by simp [DoubleArith.gt])⟩

/-- C11: on the fixture `getTopNBy(db, 2, LessByRating)` returns the two
highest-rated records, "The Great Gatsby" (4.5) and "Animal Farm" (4.4): in that
order with the sorting `std::nth_element`, and in one of the two orders with every
implementation that meets the contract; so it never returns "1984" followed by
"Animal Farm". -/
theorem getTopNBy_fixture_top2 :
    (getTopNBy nth_element_sorting fixture 2 comp.LessByRating).2.map (fun b => b.title) =
      ["The Great Gatsby", "Animal Farm"] ∧
    ∀ nth_element : (Book ℚ → Book ℚ → Bool) → List (Book ℚ) → Nat → List (Book ℚ),
      NthElementContract nth_element →
        ((getTopNBy nth_element fixture 2 comp.LessByRating).2.map (fun b => b.title)).Perm
          ["Animal Farm", "The Great Gatsby"] ∧
        (getTopNBy nth_element fixture 2 comp.LessByRating).2.map (fun b => b.title) ≠
          ["1984", "Animal Farm"] := by
  refine ⟨by decide, fun nth_element hstd => ?_⟩
  have hperm := (fixture_top2_perm nth_element hstd).map (fun b => b.title)
  refine ⟨hperm, fun heq => ?_⟩
  rw [heq] at hperm
  have hmem : "1984" ∈ ["Animal Farm", "The Great Gatsby"] := hperm.mem_iff.1 (by simp)
  exact absurd hmem (by decide)

/-- C13: in every database reachable from the empty one by `PushBack`,
`EmplaceBack`, `Clear` and `getTopNBy`, the author view of every stored record
refers to the storage of the element of the author set that holds its text; the
author set stores no text twice, so two stored records with the same author text
refer to one and the same stored element. -/
theorem author_views_canonical {D : Type}
    (nth_element : (StoredBook D → StoredBook D → Bool) → List (StoredBook D) → Nat →
      List (StoredBook D))
    (db : StoredDatabase D) (hstd : NthElementContract nth_element)
    (hreach : StoredDatabase.Reachable nth_element db) :
    (∀ r ∈ db.books_, ∃ pos, r.author_data = Storage.authors pos ∧
      db.authors_[pos]? = some r.book.author) ∧
    db.authors_.Nodup ∧
    (∀ r1 ∈ db.books_, ∀ r2 ∈ db.books_, r1.book.author = r2.book.author →
      r1.author_data = r2.author_data) := by
  have hcan := StoredDatabase.Reachable.canonical hstd hreach
  exact ⟨hcan.1, hcan.2, fun r1 h1 r2 h2 htext => hcan.same_storage r1 r2 h1 h2 htext⟩

/-- Witness for C13: the fixture, inserted from storage of the caller and then
reordered by `getTopNBy(db, 2, LessByRating)` with the sorting `std::nth_element`,
is reachable; its records refer to the elements 1, 0 and 0 of the author set. -/
theorem author_views_canonical_witness :
    NthElementContract
      (nth_element_sorting :
        (StoredBook ℚ → StoredBook ℚ → Bool) → List (StoredBook ℚ) → Nat →
          List (StoredBook ℚ)) ∧
    StoredDatabase.Reachable nth_element_sorting
      (StoredDatabase.getTopNBy nth_element_sorting storedFixture 2
        (fun a b => comp.LessByRating a.book b.book)).1 ∧
    (StoredDatabase.getTopNBy nth_element_sorting storedFixture 2
        (fun a b => comp.LessByRating a.book b.book)).1.books_.map (fun r => r.author_data) =
      [Storage.authors 1, Storage.authors 0, Storage.authors 0] ∧
    ((∀ r ∈ (StoredDatabase.getTopNBy nth_element_sorting storedFixture 2
          (fun a b => comp.LessByRating a.book b.book)).1.books_,
        ∃ pos, r.author_data = Storage.authors pos ∧
          (StoredDatabase.getTopNBy nth_element_sorting storedFixture 2
            (fun a b => comp.LessByRating a.book b.book)).1.authors_[pos]? =
            some r.book.author) ∧
      (StoredDatabase.getTopNBy nth_element_sorting storedFixture 2
        (fun a b => comp.LessByRating a.book b.book)).1.authors_.Nodup ∧
      (∀ r1 ∈ (StoredDatabase.getTopNBy nth_element_sorting storedFixture 2
          (fun a b => comp.LessByRating a.book b.book)).1.books_,
        ∀ r2 ∈ (StoredDatabase.getTopNBy nth_element_sorting storedFixture 2
          (fun a b => comp.LessByRating a.book b.book)).1.books_,
        r1.book.author = r2.book.author → r1.author_data = r2.author_data)) :=
  ⟨nth_element_sorting_contract,
    StoredDatabase.Reachable.topN storedFixture 2 _
      (LessByRating_exactRationals.comap (fun r : StoredBook ℚ => r.book))
      (storedFixture_reachable nth_element_sorting),
    by decide,
    author_views_canonical nth_element_sorting
      (StoredDatabase.getTopNBy nth_element_sorting storedFixture 2
        (fun a b => comp.LessByRating a.book b.book)).1
      nth_element_sorting_contract
      (StoredDatabase.Reachable.topN storedFixture 2 _
        (LessByRating_exactRationals.comap (fun r : StoredBook ℚ => r.book))
        (storedFixture_reachable nth_element_sorting))⟩

/-- C14: for a database reachable from the empty one by `PushBack`, `EmplaceBack`,
`Clear` and `getTopNBy`, the keys of `buildAuthorHistogramFlat(db)` are exactly
the members of `GetAuthors()`, each once. -/
theorem histogram_keys_eq_GetAuthors {D : Type}
    (nth_element : (Book D → Book D → Bool) → List (Book D) → Nat → List (Book D))
    (db : BookDatabase D) (hstd : NthElementContract nth_element)
    (hreach : Reachable nth_element db) :
    (∀ a, a ∈ (buildAuthorHistogramFlat TransparentStringLess db).map Prod.fst ↔
      a ∈ db.GetAuthors) ∧
    ((buildAuthorHistogramFlat TransparentStringLess db).map Prod.fst).Perm db.GetAuthors := by
  have hinv := Reachable.authorsExact hstd hreach
  have hst := TransparentStringLess_strictTotal
  have hiff : ∀ a, a ∈ (buildAuthorHistogramFlat TransparentStringLess db).map Prod.fst ↔
      a ∈ db.GetAuthors := by
    intro a
    show _ ↔ a ∈ db.authors_
    rw [hinv.1 a]
    exact histogram_keys hst db.books_ a
  refine ⟨hiff, ?_⟩
  exact (List.perm_ext_iff_of_nodup
    (pairwise_comp_nodup hst _ (histogram_sorted hst db.books_)) hinv.2).2 hiff

/-- Witness for C14: the fixture after `getTopNBy(db, 2, LessByRating)` with the
sorting `std::nth_element` is reachable, and its histogram keys are its authors. -/
theorem histogram_keys_eq_GetAuthors_witness :
    NthElementContract
      (nth_element_sorting : (Book ℚ → Book ℚ → Bool) → List (Book ℚ) → Nat → List (Book ℚ)) ∧
    Reachable nth_element_sorting
      (getTopNBy nth_element_sorting fixture 2 comp.LessByRating).1 ∧
    (∀ a, a ∈ (buildAuthorHistogramFlat TransparentStringLess
          (getTopNBy nth_element_sorting fixture 2 comp.LessByRating).1).map Prod.fst ↔
      a ∈ (getTopNBy nth_element_sorting fixture 2 comp.LessByRating).1.GetAuthors) ∧
    ((buildAuthorHistogramFlat TransparentStringLess
          (getTopNBy nth_element_sorting fixture 2 comp.LessByRating).1).map Prod.fst).Perm
      (getTopNBy nth_element_sorting fixture 2 comp.LessByRating).1.GetAuthors :=
  ⟨nth_element_sorting_contract,
    Reachable.topN fixture 2 comp.LessByRating LessByRating_exactRationals
      (fixture_reachable nth_element_sorting),
    histogram_keys_eq_GetAuthors nth_element_sorting
      (getTopNBy nth_element_sorting fixture 2 comp.LessByRating).1 nth_element_sorting_contract
      (Reachable.topN fixture 2 comp.LessByRating LessByRating_exactRationals
        (fixture_reachable nth_element_sorting))⟩

/-- C16: `sampleRandomBooks(db, N)` on the fixture with `N = SIZE_MAX` does not
return the three records: `res.reserve(N)` throws `std::length_error`, as it does
for every `N` above `max_size()`, whatever the database, the sampler and the
generator; for `N` within `max_size()` the call returns `min(N, size())` records
from increasing positions of `db`, all of them when `N >= size()`. -/
theorem sampleRandomBooks_reserve_throws :
    sampleRandomBooks vector_max_size sample_selection [0, 0, 0] fixture SIZE_MAX =
      Except.error Exception.length_error ∧
    (∀ (D G : Type) (max_size : Nat) (sample : List (Book D) → Nat → G → List (Book D))
        (g : G) (db : BookDatabase D) (N : Nat),
      max_size < N →
        sampleRandomBooks max_size sample g db N = Except.error Exception.length_error) ∧
    (∀ (D G : Type) (max_size : Nat) (sample : List (Book D) → Nat → G → List (Book D))
        (g : G) (db : BookDatabase D) (N : Nat),
      SampleContract sample → N ≤ max_size →
        ∃ res, sampleRandomBooks max_size sample g db N = Except.ok res ∧
          res.length = min N db.size ∧ res.Sublist db.GetBooks ∧
          (db.size ≤ N → res = db.GetBooks)) ∧
    sampleRandomBooks vector_max_size sample_selection [0, 0, 0] fixture 5 =
      Except.ok fixture.GetBooks := by
  refine ⟨?_, ?_, ?_, ?_⟩
  · have h : SIZE_MAX > vector_max_size := by decide
    simp [sampleRandomBooks, h]
  · intro D G max_size sample g db N h
    simp [sampleRandomBooks, h]
  · intro D G max_size sample g db N hstd hN
    exact sampleRandomBooks_within_max_size max_size sample hstd g db N hN
  · obtain ⟨res, hres, -, -, hall⟩ :=
      sampleRandomBooks_within_max_size vector_max_size sample_selection
        sample_selection_contract [0, 0, 0] fixture 5 (by decide)
    rw [hres, hall (by decide)]

/-- C20 (as amended): `LessByAuthor` and `LessByPopularity` are strict weak
orderings on all records; `LessByRating` is a strict weak ordering whenever `>`
on the ratings is one, and under the comparison of IEEE 754 it is irreflexive and
transitive on all records, with incomparability transitive through every record
whose rating is not not-a-number. -/
theorem comparators_strictWeak {D : Type} :
    StrictWeakOrdering (comp.LessByAuthor : Book D → Book D → Bool) ∧
    StrictWeakOrdering (comp.LessByPopularity : Book D → Book D → Bool) ∧
    (∀ inst : DoubleArith D, StrictWeakOrdering (fun x y : D => inst.gt x y) →
      StrictWeakOrdering (@comp.LessByRating D inst)) ∧
    (∀ a : Book Float64, comp.LessByRating a a = false) ∧
    (∀ a b c : Book Float64, comp.LessByRating a b = true → comp.LessByRating b c = true →
      comp.LessByRating a c = true) ∧
    (∀ a b c : Book Float64, b.rating ≠ Float64.nan →
      comp.LessByRating a b = false → comp.LessByRating b a = false →
      comp.LessByRating b c = false → comp.LessByRating c b = false →
      comp.LessByRating a c = false ∧ comp.LessByRating c a = false) := by
  refine ⟨LessByAuthor_strictWeak, LessByPopularity_strictWeak, ?_, ?_, ?_, ?_⟩
  · intro inst h
    exact @LessByRating_strictWeak_of_gt D inst h
  · intro a
    exact Float64_gt_irrefl a.rating
  · intro a b c hab hbc
    exact Float64_gt_trans a.rating b.rating c.rating hab hbc
  · intro a b c hb hab hba hbc hcb
    exact Float64_incomp_trans a.rating b.rating c.rating hb hab hba hbc hcb

/-- Counterexample for C20: for records rated `1.0`, not-a-number and `2.0`,
`LessByRating` leaves the first and the second incomparable and the second and the
third incomparable, yet puts the third before the first; so it is no strict weak
ordering on records. -/
theorem LessByRating_not_strictWeak :
    comp.LessByRating nanRatings.1 nanRatings.2.1 = false ∧
    comp.LessByRating nanRatings.2.1 nanRatings.1 = false ∧
    comp.LessByRating nanRatings.2.1 nanRatings.2.2 = false ∧
    comp.LessByRating nanRatings.2.2 nanRatings.2.1 = false ∧
    comp.LessByRating nanRatings.2.2 nanRatings.1 = true ∧
    ¬ StrictWeakOrdering (comp.LessByRating : Book Float64 → Book Float64 → Bool) := by
  have h1 : comp.LessByRating nanRatings.1 nanRatings.2.1 = false := by decide
  have h2 : comp.LessByRating nanRatings.2.1 nanRatings.1 = false := by decide
  have h3 : comp.LessByRating nanRatings.2.1 nanRatings.2.2 = false := by decide
  have h4 : comp.LessByRating nanRatings.2.2 nanRatings.2.1 = false := by decide
  have h5 : comp.LessByRating nanRatings.2.2 nanRatings.1 = true := by decide
  refine ⟨h1, h2, h3, h4, h5, fun h => ?_⟩
  have := (h.incomp_trans nanRatings.1 nanRatings.2.1 nanRatings.2.2 h1 h2 h3 h4).2
  rw [h5] at this
  exact absurd this (by decide)

end bookdb
